import Mathlib

/-!
Verification of the plyvel iteration and view-composition layer
(`src/plyvel/_plyvel.pyx`) against its natural-language specification.

The storage engine (LevelDB) is an external collaborator: its native
cursor over a strictly sorted list of byte-string keys is modelled as a
list zipper (`Cursor`), with `SeekToFirst`, `SeekToLast`, `Seek`, `Next`,
`Prev`, `Valid`, `key` as pure functions.  The comparator is modelled by a
`LinearOrder` on the key type; `cmpInt` mirrors the three-way integer
comparison the Cython code performs via `comparator.Compare`.

The functions `real_next`, `real_prev`, `seekIt`, `deriveBounds`,
`bytes_increment`, `closeTrace` and `wb_exit` are direct translations of
the corresponding Cython code paths.
-/

namespace Plyvel

/-! ## Bytes and `bytes_increment` (source lines 119-137) -/

abbrev Byte := Fin 256

/-- Helper for `bytes_increment`: the source loop scans the byte string
from its last index towards the front, skipping `0xff` bytes; here the
input is the reversed byte string, so the scan is structural recursion.
A skipped `0xff` byte is dropped, which is exactly the source's
truncation `b[:i + 1]` after incrementing position `i`. -/
def incRevBytes : List Byte → Option (List Byte)
  | [] => none
  | b :: rest =>
    if h : b.val = 255 then incRevBytes rest
    else some (Fin.mk (b.val + 1) (by have := b.isLt; omega) :: rest)

/-- `bytes_increment` from the source: increment the last byte that is
not `0xff` and truncate after it; `none` if all bytes are `0xff`. -/
def bytes_increment (s : List Byte) : Option (List Byte) :=
  (incRevBytes s.reverse).map List.reverse

/-! ## Iterator configuration and state (source lines 591-628) -/

/-- The four iterator states of the Cython enum `IteratorState`. -/
inductive ItState where
  | BEFORE_START
  | AFTER_STOP
  | IN_BETWEEN
  | IN_BETWEEN_ALREADY_POSITIONED
deriving DecidableEq, Repr

/-- Effective bounds of one iterator: `start`/`stop` keys (`none` means
unbounded) and their inclusive flags, as stored on the `Iterator`
object after construction. -/
structure ItCfg (α : Type) where
  start : Option α
  stop : Option α
  include_start : Bool
  include_stop : Bool
deriving DecidableEq, Repr

/-- The engine's native cursor, positioned at `cur`, as a zipper into the
strictly sorted key list: `before` holds the keys preceding `cur`
(nearest first), `after` the keys following it (in order). -/
structure Cursor (α : Type) where
  before : List α
  cur : α
  after : List α
deriving DecidableEq, Repr

/-- The keys of the store a cursor ranges over. -/
def memC {α : Type} (c : Cursor α) : List α :=
  c.before.reverse ++ c.cur :: c.after

/-- One plyvel iterator: the native cursor (`none` = engine "invalid"
position) plus the logical state of the state machine. -/
structure ItPos (α : Type) where
  pos : Option (Cursor α)
  state : ItState
deriving DecidableEq, Repr

variable {α : Type}

/-- Engine `SeekToFirst`. -/
def seekFirst : List α → Option (Cursor α)
  | [] => none
  | k :: rest => some ⟨[], k, rest⟩

/-- Engine `SeekToLast`. -/
def seekLast (ks : List α) : Option (Cursor α) :=
  match ks.reverse with
  | [] => none
  | k :: restRev => some ⟨restRev, k, []⟩

/-- Engine `Seek(t)`: position at the first key at or after `t`
(for a strictly sorted key list). -/
def cseek [LinearOrder α] (ks : List α) (t : α) : Option (Cursor α) :=
  match ks.dropWhile (fun k => decide (k < t)) with
  | [] => none
  | c :: a => some ⟨(ks.takeWhile (fun k => decide (k < t))).reverse, c, a⟩

/-- Engine `Next` on a valid cursor. -/
def cnext (c : Cursor α) : Option (Cursor α) :=
  match c.after with
  | [] => none
  | x :: a => some ⟨c.cur :: c.before, x, a⟩

/-- Engine `Prev` on a valid cursor. -/
def cprev (c : Cursor α) : Option (Cursor α) :=
  match c.before with
  | [] => none
  | x :: b => some ⟨b, x, c.cur :: c.after⟩

/-- Engine `Next`/`Prev` lifted to possibly-invalid cursors; the Cython
code only ever moves a cursor it has checked to be valid. -/
def onext (p : Option (Cursor α)) : Option (Cursor α) := p.bind cnext

def oprev (p : Option (Cursor α)) : Option (Cursor α) := p.bind cprev

/-- Engine `key()` guarded by `Valid()`. -/
def ckey (p : Option (Cursor α)) : Option α :=
  p.map (fun c => c.cur)

/-- The three-way comparison `comparator.Compare(a, b)` of the handle's
comparator, as the Cython guards consume it. -/
def cmpInt [LinearOrder α] (a b : α) : Int :=
  if a < b then -1 else if b < a then 1 else 0

/-! ## `real_next` (source lines 769-813) -/

/-- Common tail of every non-raising `real_next` branch (source lines
804-813): with the logical state already `IN_BETWEEN`, check the stop
bound against the current key and yield it, or end with `AFTER_STOP`.
The `none` key case is unreachable: every caller has checked validity. -/
def nextTail [LinearOrder α] (cfg : ItCfg α) (p : Option (Cursor α)) :
    Option α × ItPos α :=
  match ckey p with
  | none => (none, ⟨p, .IN_BETWEEN⟩)
  | some k =>
    match cfg.stop with
    | none => (some k, ⟨p, .IN_BETWEEN⟩)
    | some t =>
      if cmpInt k t ≥ (if cfg.include_stop then 1 else 0) then
        (none, ⟨p, .AFTER_STOP⟩)
      else
        (some k, ⟨p, .IN_BETWEEN⟩)

/-- `Iterator.real_next`: physical forward step.  The first component is
the yielded key (`none` models `StopIteration`); the second is the
iterator afterwards. -/
def real_next [LinearOrder α] (cfg : ItCfg α) (ks : List α) (it : ItPos α) :
    Option α × ItPos α :=
  match it.state with
  | .IN_BETWEEN =>
    let p := onext it.pos
    if (ckey p).isNone then (none, ⟨p, .AFTER_STOP⟩)
    else nextTail cfg p
  | .IN_BETWEEN_ALREADY_POSITIONED =>
    nextTail cfg it.pos
  | .BEFORE_START =>
    let p := match cfg.start with
      | none => seekFirst ks
      | some s => cseek ks s
    match ckey p with
    | none => (none, ⟨p, .BEFORE_START⟩)
    | some k =>
      match cfg.start with
      | some s =>
        if ¬ cfg.include_start ∧ cmpInt k s = 0 then
          let p' := onext p
          if (ckey p').isNone then (none, ⟨p', .BEFORE_START⟩)
          else nextTail cfg p'
        else nextTail cfg p
      | none => nextTail cfg p
  | .AFTER_STOP => (none, it)

/-! ## `real_prev` (source lines 815-897) -/

/-- Common tail of every yielding `real_prev` branch (source lines
869-897): capture the current key, step the cursor backward, then
classify the *new* position against the start bound. -/
def prevTail [LinearOrder α] (cfg : ItCfg α) (p : Option (Cursor α)) :
    Option α × ItPos α :=
  match ckey p with
  | none => (none, ⟨p, .IN_BETWEEN⟩)
  | some out =>
    let p' := oprev p
    match ckey p' with
    | none => (some out, ⟨p', .BEFORE_START⟩)
    | some k' =>
      match cfg.start with
      | none => (some out, ⟨p', .IN_BETWEEN⟩)
      | some s =>
        if cmpInt k' s ≥ (if cfg.include_start then 0 else 1) then
          (some out, ⟨p', .IN_BETWEEN⟩)
        else
          (some out, ⟨p', .BEFORE_START⟩)

/-- The repositioning dance of `real_prev`'s `AFTER_STOP` branch (source
lines 832-856): locate the last entry allowed by the stop bound. -/
def reposition [LinearOrder α] (cfg : ItCfg α) (ks : List α) :
    Option (Cursor α) :=
  match cfg.stop with
  | none => seekLast ks
  | some t =>
    let p1 := cseek ks t
    let p2 := match ckey p1 with
      | some _ => if ¬ cfg.include_stop then oprev p1 else p1
      | none => seekLast ks
    match ckey p2 with
    | some k2 => if cmpInt k2 t > 0 then oprev p2 else p2
    | none => p2

/-- `Iterator.real_prev`: physical backward step. -/
def real_prev [LinearOrder α] (cfg : ItCfg α) (ks : List α) (it : ItPos α) :
    Option α × ItPos α :=
  match it.state with
  | .IN_BETWEEN => prevTail cfg it.pos
  | .IN_BETWEEN_ALREADY_POSITIONED =>
    let p := oprev it.pos
    if (ckey p).isNone then (none, ⟨p, .BEFORE_START⟩)
    else prevTail cfg p
  | .BEFORE_START => (none, it)
  | .AFTER_STOP =>
    let p := reposition cfg ks
    match ckey p with
    | none => (none, ⟨p, .AFTER_STOP⟩)
    | some k =>
      match cfg.start with
      | some s =>
        if cmpInt s k ≥ 0 then (none, ⟨p, .AFTER_STOP⟩)
        else prevTail cfg p
      | none => prevTail cfg p

/-! ## `seek` (source lines 911-933) -/

/-- `Iterator.seek`: clamp the target into the bounds window, position
the native cursor, and classify. -/
def seekIt [LinearOrder α] (cfg : ItCfg α) (ks : List α) (t : α) : ItPos α :=
  let t1 := match cfg.start with
    | some s => if cmpInt t s < 0 then s else t
    | none => t
  let t2 := match cfg.stop with
    | some e => if cmpInt t1 e > 0 then e else t1
    | none => t1
  let p := cseek ks t2
  if (ckey p).isNone then ⟨p, .AFTER_STOP⟩
  else ⟨p, .IN_BETWEEN_ALREADY_POSITIONED⟩

/-- The clamp of the seek target as the spec words it (for comparison
with `seekIt`, which follows the source's comparator calls): a target
below `start` is first pulled up to `start`, and a result above `stop`
is then pulled down to `stop`. -/
def specClamp [LinearOrder α] (cfg : ItCfg α) (t : α) : α :=
  let t1 := match cfg.start with
    | some s => if t < s then s else t
    | none => t
  match cfg.stop with
  | some e => if e < t1 then e else t1
  | none => t1

/-! ## Traversals -/

/-- A freshly constructed forward iterator (`seek_to_start`). -/
def initForward : ItPos α := ⟨none, .BEFORE_START⟩

/-- A freshly constructed reverse iterator (`seek_to_stop`). -/
def initReverse : ItPos α := ⟨none, .AFTER_STOP⟩

/-- Exhaust the iterator by repeated physical-next calls (what `next()`
does on a forward iterator), fuel-bounded. -/
def runForward [LinearOrder α] (cfg : ItCfg α) (ks : List α) :
    ItPos α → Nat → List α
  | _, 0 => []
  | it, n + 1 =>
    match real_next cfg ks it with
    | (none, _) => []
    | (some k, it') => k :: runForward cfg ks it' n

/-- Exhaust the iterator by repeated physical-prev calls (what `next()`
does on a reverse iterator), fuel-bounded. -/
def runReverse [LinearOrder α] (cfg : ItCfg α) (ks : List α) :
    ItPos α → Nat → List α
  | _, 0 => []
  | it, n + 1 =>
    match real_prev cfg ks it with
    | (none, _) => []
    | (some k, it') => k :: runReverse cfg ks it' n

/-! ## The bound predicate of the specification -/

/-- Does `k` satisfy the start bound? -/
def startOkB [LinearOrder α] (cfg : ItCfg α) (k : α) : Bool :=
  match cfg.start with
  | none => true
  | some s => if cfg.include_start then decide (s ≤ k) else decide (s < k)

/-- Does `k` satisfy the stop bound? -/
def stopOkB [LinearOrder α] (cfg : ItCfg α) (k : α) : Bool :=
  match cfg.stop with
  | none => true
  | some t => if cfg.include_stop then decide (k ≤ t) else decide (k < t)

/-- The bound predicate of spec §8: `k` is inside the iteration window. -/
def inRangeB [LinearOrder α] (cfg : ItCfg α) (k : α) : Bool :=
  startOkB cfg k && stopOkB cfg k

/-- The spec's reverse-iteration exception condition: the bound window
holds exactly one key and that key equals the (inclusive) start bound.
In this situation the code's `real_prev` repositioning check
`Compare(start, key) >= 0` (source line 865) fires even though the key
is inside the window, so reverse iteration yields nothing. -/
def Econd [LinearOrder α] (cfg : ItCfg α) (ks : List α) : Bool :=
  match cfg.start with
  | some s => cfg.include_start && decide (ks.filter (inRangeB cfg) = [s])
  | none => false

/-- Invariant of every iterator state reachable using only `next()` and
`prev()` (no explicit seek): the cursor ranges over the store keys, the
state `IN_BETWEEN` points at an in-window key, and the seek-only state
`IN_BETWEEN_ALREADY_POSITIONED` never occurs. -/
def NoSeekInv [LinearOrder α] (cfg : ItCfg α) (ks : List α) (it : ItPos α) :
    Prop :=
  (∀ c, it.pos = some c → memC c = ks) ∧
  (match it.state with
   | .IN_BETWEEN =>
     ∃ c, it.pos = some c ∧ startOkB cfg c.cur = true ∧ stopOkB cfg c.cur = true
   | .IN_BETWEEN_ALREADY_POSITIONED => False
   | _ => True)

/-- The two navigation calls of the Python API (for a forward iterator,
`next()` is the physical next and `prev()` the physical prev; for a
reverse iterator the dispatch is swapped, covered by symmetry). -/
inductive NavOp where
  | nextOp
  | prevOp
deriving DecidableEq, Repr

def stepOp [LinearOrder α] (cfg : ItCfg α) (ks : List α) (it : ItPos α) :
    NavOp → ItPos α
  | .nextOp => (real_next cfg ks it).2
  | .prevOp => (real_prev cfg ks it).2

/-- State after a traversal consisting of physical next/prev calls. -/
def runOps [LinearOrder α] (cfg : ItCfg α) (ks : List α) (ops : List NavOp)
    (it : ItPos α) : ItPos α :=
  ops.foldl (stepOp cfg ks) it

/-! ## `DB.close` resource teardown (source lines 240-274) -/

/-- The comparator held in `options.comparator`: the shared built-in
`BytewiseComparator` or an adapter for a user-supplied callable. -/
inductive CompKind where
  | builtinBytewise
  | custom
deriving DecidableEq, Repr

/-- The parts of a `DB` that `close()` inspects: the weak iterator
registry (`none` models a constructor that failed before creating it),
and the nullable engine-side resources. -/
structure DBState where
  iterators : Option (List Nat)
  dbOpen : Bool
  blockCache : Bool
  filterPolicy : Bool
  comparator : Option CompKind
deriving DecidableEq, Repr

/-- Observable side effects of `DB.close`, in order. -/
inductive CloseEv where
  | closeIter (id : Nat)
  | closeEngine
  | freeBlockCache
  | freeFilterPolicy
  | freeComparator
deriving DecidableEq, Repr

/-- The iterator-close events of `DB.close` (source lines 246-256): the
weak registry is walked and each registered iterator force-closed. -/
def iterEvents (its : Option (List Nat)) : List CloseEv :=
  match its with
  | none => []
  | some l => l.map CloseEv.closeIter

/-- The option-resource releases of `DB.close` (source lines 262-274):
block cache, filter policy, and the comparator — but the built-in
`BytewiseComparator` is never deleted. -/
def optionEvents (bc fp : Bool) (comp : Option CompKind) : List CloseEv :=
  (if bc then [CloseEv.freeBlockCache] else [])
  ++ (if fp then [CloseEv.freeFilterPolicy] else [])
  ++ (match comp with
      | some CompKind.custom => [CloseEv.freeComparator]
      | _ => [])

/-- The effect trace of `DB.close`, straight from the source: close the
registered iterators, then `del self._db`, then release block cache,
filter policy and (unless it is the shared built-in) the comparator. -/
def closeTrace (db : DBState) : List CloseEv :=
  iterEvents db.iterators
  ++ (if db.dbOpen then [CloseEv.closeEngine] else [])
  ++ optionEvents db.blockCache db.filterPolicy db.comparator

/-! ## `WriteBatch.__exit__` (source lines 574-584) -/

inductive BatchEv where
  | writeOp
  | clearOp
deriving DecidableEq, Repr

/-- `WriteBatch.__exit__`: `error` models the `RuntimeError` on a closed
database; otherwise the batch-call sequence performed, paired with the
exception (if any) that continues to propagate (returning a falsy value
from `__exit__` re-raises the pending exception unchanged). -/
def wb_exit {ε : Type} (dbOpen : Bool) (transaction : Bool) (exc : Option ε) :
    Except Unit (List BatchEv × Option ε) :=
  if dbOpen = false then Except.error ()
  else if transaction = true ∧ exc.isSome then
    Except.ok ([BatchEv.clearOp], exc)
  else
    Except.ok ([BatchEv.writeOp, BatchEv.clearOp], exc)

/-! ## `Iterator.__init__` bound derivation (source lines 628-686) -/

inductive UsageError where
  | typeError
deriving DecidableEq, Repr

/-- The effective bounds stored on the iterator after construction. -/
structure EffBounds where
  start : Option (List Byte)
  stop : Option (List Byte)
  include_start : Bool
  include_stop : Bool
deriving DecidableEq, Repr

/-- The bound-derivation logic of `Iterator.__init__`: namespace prefix
rewriting (source lines 640-662), then the `prefix` argument handling
(source lines 664-673). -/
def deriveBounds (keyPfx iterPfx start stop : Option (List Byte))
    (include_start include_stop : Bool) : Except UsageError EffBounds :=
  let step1 :
      Option (List Byte) × Option (List Byte) × Option (List Byte) × Bool × Bool :=
    match keyPfx with
    | none => (iterPfx, start, stop, include_start, include_stop)
    | some kp =>
      match iterPfx with
      | some p => (some (kp ++ p), start, stop, include_start, include_stop)
      | none =>
        let s1 : Option (List Byte) × Bool :=
          match start with
          | none => (some kp, true)
          | some s => (some (kp ++ s), include_start)
        let e1 : Option (List Byte) × Bool :=
          match stop with
          | none => (bytes_increment kp, false)
          | some e => (some (kp ++ e), include_stop)
        (none, s1.1, e1.1, s1.2, e1.2)
  match step1 with
  | (pfx, s2, e2, is2, ie2) =>
    match pfx with
    | some p =>
      if start ≠ none ∨ stop ≠ none then Except.error UsageError.typeError
      else Except.ok ⟨some p, bytes_increment p, true, false⟩
    | none => Except.ok ⟨s2, e2, is2, ie2⟩

/-! ## Comparator guard translations -/

section Lemmas

variable [LinearOrder α]

theorem cmpInt_lt_zero_iff (a b : α) : cmpInt a b < 0 ↔ a < b := by
  unfold cmpInt
  rcases lt_trichotomy a b with h | h | h
  · simp [h]
  · simp [h, lt_irrefl]
  · simp [not_lt_of_gt h, h]

theorem cmpInt_pos_iff (a b : α) : cmpInt a b > 0 ↔ b < a := by
  unfold cmpInt
  rcases lt_trichotomy a b with h | h | h
  · simp [h, not_lt_of_gt h]
  · simp [h, lt_irrefl]
  · simp [not_lt_of_gt h, h]

theorem cmpInt_eq_zero_iff (a b : α) : cmpInt a b = 0 ↔ a = b := by
  unfold cmpInt
  rcases lt_trichotomy a b with h | h | h
  · simp [h, ne_of_lt h]
  · simp [h, lt_irrefl]
  · simp [not_lt_of_gt h, h, (ne_of_lt h).symm]

theorem cmpInt_ge_zero_iff (a b : α) : cmpInt a b ≥ 0 ↔ b ≤ a := by
  unfold cmpInt
  rcases lt_trichotomy a b with h | h | h
  · simp [h, not_le_of_lt h]
  · simp [h, lt_irrefl, le_refl]
  · simp [not_lt_of_gt h, h, le_of_lt h]

theorem cmpInt_ge_one_iff (a b : α) : cmpInt a b ≥ 1 ↔ b < a := by
  unfold cmpInt
  rcases lt_trichotomy a b with h | h | h
  · simp [h, not_lt_of_gt h]
  · simp [h, lt_irrefl]
  · simp [not_lt_of_gt h, h]

/-! ## Bound predicate facts -/

theorem startOkB_mono {cfg : ItCfg α} {k k' : α} (h : startOkB cfg k = true)
    (hkk : k ≤ k') : startOkB cfg k' = true := by
  unfold startOkB at *
  cases hst : cfg.start with
  | none => rfl
  | some s =>
    rw [hst] at h
    cases hinc : cfg.include_start <;> rw [hinc] at h <;> simp_all
    · exact lt_of_lt_of_le h hkk
    · exact le_trans h hkk

theorem stopOkB_anti {cfg : ItCfg α} {k k' : α} (h : stopOkB cfg k' = true)
    (hkk : k ≤ k') : stopOkB cfg k = true := by
  unfold stopOkB at *
  cases hst : cfg.stop with
  | none => rfl
  | some t =>
    rw [hst] at h
    cases hinc : cfg.include_stop <;> rw [hinc] at h <;> simp_all
    · exact lt_of_le_of_lt hkk h
    · exact le_trans hkk h

/-- The `real_next` stop guard is the negation of the stop-bound test. -/
theorem stop_guard_iff {cfg : ItCfg α} {t : α} (h : cfg.stop = some t) (k : α) :
    (cmpInt k t ≥ (if cfg.include_stop then 1 else 0)) ↔ stopOkB cfg k = false := by
  unfold stopOkB
  rw [h]
  cases hinc : cfg.include_stop
  · simp [cmpInt_ge_zero_iff]
  · simp [cmpInt_ge_one_iff]

/-- The `real_prev` classification guard is the start-bound test. -/
theorem start_guard_iff {cfg : ItCfg α} {s : α} (h : cfg.start = some s) (k : α) :
    (cmpInt k s ≥ (if cfg.include_start then 0 else 1)) ↔ startOkB cfg k = true := by
  unfold startOkB
  rw [h]
  cases hinc : cfg.include_start
  · simp [cmpInt_ge_one_iff]
  · simp [cmpInt_ge_zero_iff]

/-! ## List toolkit -/

/-- On a `R`-pairwise list, a predicate closed under `R`-predecessors is
decided by its first failure: `filter` and `takeWhile` agree. -/
theorem filter_eq_takeWhile_of_pairwise {R : α → α → Prop} {p : α → Bool}
    (hR : ∀ a b : α, R a b → p b = true → p a = true) :
    ∀ l : List α, l.Pairwise R → l.filter p = l.takeWhile p := by
  intro l hl
  induction l with
  | nil => rfl
  | cons x xs ih =>
    rcases List.pairwise_cons.mp hl with ⟨hx, hxs⟩
    by_cases hpx : p x = true
    · rw [List.filter_cons_of_pos hpx, List.takeWhile_cons_of_pos hpx, ih hxs]
    · rw [List.filter_cons_of_neg (by simp_all), List.takeWhile_cons_of_neg (by simp_all)]
      rw [List.filter_eq_nil_iff]
      intro a ha hpa
      exact hpx (hR x a (hx a ha) hpa)

/-- A split `A ++ B` with `p` true on all of `A` and false at the head of
`B` is exactly the `takeWhile`/`dropWhile` split. -/
theorem takeWhile_dropWhile_split {p : α → Bool} :
    ∀ (A B : List α), (∀ x ∈ A, p x = true) →
      (∀ c a, B = c :: a → p c = false) →
      (A ++ B).takeWhile p = A ∧ (A ++ B).dropWhile p = B := by
  intro A
  induction A with
  | nil =>
    intro B _ hB
    cases B with
    | nil => exact ⟨rfl, rfl⟩
    | cons c a =>
      have hc : p c = false := hB c a rfl
      constructor
      · rw [List.nil_append]
        exact List.takeWhile_cons_of_neg (by simp [hc])
      · rw [List.nil_append]
        exact List.dropWhile_cons_of_neg (by simp [hc])
  | cons x A' ih =>
    intro B hA hB
    have hx : p x = true := hA x (by simp)
    have h' := ih B (fun y hy => hA y (by simp [hy])) hB
    constructor
    · simpa [List.takeWhile_cons_of_pos hx] using h'.1
    · simpa [List.dropWhile_cons_of_pos hx] using h'.2

/-- The head of a non-empty `dropWhile` residue fails the predicate. -/
theorem dropWhile_cons_head_false {p : α → Bool} :
    ∀ (l : List α) (c : α) (a : List α), l.dropWhile p = c :: a → p c = false := by
  intro l
  induction l with
  | nil => intro c a h; simp at h
  | cons x xs ih =>
    intro c a h
    rw [List.dropWhile_cons] at h
    by_cases hpx : p x = true
    · rw [if_pos hpx] at h; exact ih c a h
    · rw [if_neg hpx] at h
      cases h
      simpa using hpx

/-- On a sorted list, once `takeWhile stopOkB` is empty the whole list
fails the stop bound. -/
theorem all_stop_false_of_takeWhile_nil {cfg : ItCfg α} {ks : List α}
    (hs : ks.Pairwise (· < ·)) (h : ks.takeWhile (stopOkB cfg) = []) :
    ∀ x ∈ ks, stopOkB cfg x = false := by
  cases ks with
  | nil => intro x hx; simp at hx
  | cons k rest =>
    have hk : stopOkB cfg k = false := by
      by_cases hp : stopOkB cfg k = true
      · rw [List.takeWhile_cons_of_pos hp] at h; simp at h
      · simpa using hp
    intro x hx
    rcases List.mem_cons.mp hx with rfl | hx'
    · exact hk
    · by_cases hp : stopOkB cfg x = true
      · have hkx : k < x := (List.pairwise_cons.mp hs).1 x hx'
        have := stopOkB_anti hp (le_of_lt hkx)
        rw [this] at hk; cases hk
      · simpa using hp

/-- Everything in the `dropWhile stopOkB` residue of a sorted list fails
the stop bound. -/
theorem all_stop_false_of_mem_dropWhile {cfg : ItCfg α} {ks : List α}
    (hs : ks.Pairwise (· < ·)) :
    ∀ x ∈ ks.dropWhile (stopOkB cfg), stopOkB cfg x = false := by
  cases hd : ks.dropWhile (stopOkB cfg) with
  | nil => intro x hx; simp at hx
  | cons d ds =>
    have hdfalse : stopOkB cfg d = false := dropWhile_cons_head_false ks d ds hd
    have hsub : (d :: ds).Pairwise (· < ·) := by
      have : (ks.takeWhile (stopOkB cfg) ++ d :: ds).Pairwise (· < ·) := by
        rw [← hd, List.takeWhile_append_dropWhile]; exact hs
      exact (List.pairwise_append.mp this).2.1
    intro x hx
    rcases List.mem_cons.mp hx with rfl | hx'
    · exact hdfalse
    · by_cases hp : stopOkB cfg x = true
      · have hdx : d < x := (List.pairwise_cons.mp hsub).1 x hx'
        have := stopOkB_anti hp (le_of_lt hdx)
        rw [this] at hdfalse; cases hdfalse
      · simpa using hp

/-! ## Forward traversal characterization -/

theorem runF_succ_some (cfg : ItCfg α) (ks : List α) {it : ItPos α} {k : α}
    {it' : ItPos α} (h : real_next cfg ks it = (some k, it')) (n : Nat) :
    runForward cfg ks it (n + 1) = k :: runForward cfg ks it' n := by
  show (match real_next cfg ks it with
        | (none, _) => []
        | (some k, it') => k :: runForward cfg ks it' n) = _
  rw [h]

theorem runF_succ_none (cfg : ItCfg α) (ks : List α) {it : ItPos α}
    (h : (real_next cfg ks it).1 = none) (n : Nat) :
    runForward cfg ks it (n + 1) = [] := by
  show (match real_next cfg ks it with
        | (none, _) => []
        | (some k, it') => k :: runForward cfg ks it' n) = _
  have h2 : real_next cfg ks it = (none, (real_next cfg ks it).2) := by
    rw [← h]
  rw [h2]

/-- Value of `nextTail` at a valid cursor, by the stop-bound test. -/
theorem nextTail_yield {cfg : ItCfg α} {x : α} (c : Cursor α) (hc : c.cur = x)
    (hx : stopOkB cfg x = true) :
    nextTail cfg (some c) = (some x, ⟨some c, .IN_BETWEEN⟩) := by
  subst hc
  cases hstop : cfg.stop with
  | none => simp [nextTail, ckey, hstop]
  | some t =>
    have hguard : ¬ (cmpInt c.cur t ≥ (if cfg.include_stop then 1 else 0)) := by
      rw [stop_guard_iff hstop]
      simp [hx]
    simp [nextTail, ckey, hstop, hguard]

theorem nextTail_stop {cfg : ItCfg α} {x : α} (c : Cursor α) (hc : c.cur = x)
    (hx : stopOkB cfg x = false) :
    nextTail cfg (some c) = (none, ⟨some c, .AFTER_STOP⟩) := by
  subst hc
  cases hstop : cfg.stop with
  | none => simp [stopOkB, hstop] at hx
  | some t =>
    have hguard : cmpInt c.cur t ≥ (if cfg.include_stop then 1 else 0) := by
      rw [stop_guard_iff hstop]
      exact hx
    simp [nextTail, ckey, hstop, hguard]

/-- From `IN_BETWEEN`, the remaining forward yields are exactly the
in-stop-bound portion of the keys after the cursor. -/
theorem runF_inbetween (cfg : ItCfg α) (ks : List α) :
    ∀ (a b : List α) (k : α) (n : Nat), a.length ≤ n →
      runForward cfg ks ⟨some ⟨b, k, a⟩, .IN_BETWEEN⟩ n
        = a.takeWhile (stopOkB cfg) := by
  intro a
  induction a with
  | nil =>
    intro b k n _
    cases n with
    | zero => rfl
    | succ m =>
      exact runF_succ_none cfg ks (by simp [real_next, onext, cnext, ckey]) m
  | cons x a' ih =>
    intro b k n hn
    cases n with
    | zero => simp at hn
    | succ m =>
      have hstep : real_next cfg ks ⟨some ⟨b, k, x :: a'⟩, .IN_BETWEEN⟩
          = nextTail cfg (some ⟨k :: b, x, a'⟩) := by
        simp [real_next, onext, cnext, ckey, nextTail]
      by_cases hx : stopOkB cfg x = true
      · have h1 : real_next cfg ks ⟨some ⟨b, k, x :: a'⟩, .IN_BETWEEN⟩
            = (some x, ⟨some ⟨k :: b, x, a'⟩, .IN_BETWEEN⟩) := by
          rw [hstep, nextTail_yield _ rfl hx]
        rw [runF_succ_some cfg ks h1, List.takeWhile_cons_of_pos hx]
        exact congrArg (x :: ·) (ih (k :: b) x m (Nat.le_of_succ_le_succ hn))
      · have hx' : stopOkB cfg x = false := by simpa using hx
        have h1 : real_next cfg ks ⟨some ⟨b, k, x :: a'⟩, .IN_BETWEEN⟩
            = (none, ⟨some ⟨k :: b, x, a'⟩, .AFTER_STOP⟩) := by
          rw [hstep, nextTail_stop _ rfl hx']
        rw [runF_succ_none cfg ks (by rw [h1]) m,
          List.takeWhile_cons_of_neg (by simp [hx'])]

/-! ## Start-bound helpers -/

theorem startOk_false_of_lt {cfg : ItCfg α} {s x : α} (h : cfg.start = some s)
    (hx : x < s) : startOkB cfg x = false := by
  unfold startOkB
  rw [h]
  cases hinc : cfg.include_start
  · simp [le_of_lt hx, not_lt.mpr (le_of_lt hx)]
  · simp [not_le.mpr hx]

theorem startOk_true_of_gt {cfg : ItCfg α} {s x : α} (h : cfg.start = some s)
    (hx : s < x) : startOkB cfg x = true := by
  unfold startOkB
  rw [h]
  cases hinc : cfg.include_start
  · simp [hx]
  · simp [le_of_lt hx]

theorem startOk_true_incl {cfg : ItCfg α} {s x : α} (h : cfg.start = some s)
    (hinc : cfg.include_start = true) (hx : s ≤ x) : startOkB cfg x = true := by
  unfold startOkB
  rw [h, hinc]
  simp [hx]

theorem startOk_true_of_none {cfg : ItCfg α} (h : cfg.start = none) (x : α) :
    startOkB cfg x = true := by
  unfold startOkB
  rw [h]

theorem stopOk_true_of_none {cfg : ItCfg α} (h : cfg.stop = none) (x : α) :
    stopOkB cfg x = true := by
  unfold stopOkB
  rw [h]

theorem inRange_eq_stop_of_startOk {cfg : ItCfg α} {x : α}
    (h : startOkB cfg x = true) : inRangeB cfg x = stopOkB cfg x := by
  unfold inRangeB
  rw [h, Bool.true_and]

theorem inRange_false_of_start_false {cfg : ItCfg α} {x : α}
    (h : startOkB cfg x = false) : inRangeB cfg x = false := by
  unfold inRangeB
  rw [h, Bool.false_and]

theorem inRange_false_of_stop_false {cfg : ItCfg α} {x : α}
    (h : stopOkB cfg x = false) : inRangeB cfg x = false := by
  unfold inRangeB
  rw [h, Bool.and_false]

/-- For a sorted list whose members all pass the start bound, the range
filter degenerates to the stop-bound `takeWhile`. -/
theorem filter_inRange_eq_takeWhile_stop {cfg : ItCfg α} {L : List α}
    (hL : L.Pairwise (· < ·)) (hall : ∀ x ∈ L, startOkB cfg x = true) :
    L.filter (inRangeB cfg) = L.takeWhile (stopOkB cfg) := by
  rw [List.filter_congr (fun x hx => inRange_eq_stop_of_startOk (hall x hx))]
  exact filter_eq_takeWhile_of_pairwise
    (fun a b hab hb => stopOkB_anti hb (le_of_lt hab)) L hL

theorem filter_inRange_nil_of_start_false {cfg : ItCfg α} {L : List α}
    (hall : ∀ x ∈ L, startOkB cfg x = false) :
    L.filter (inRangeB cfg) = [] := by
  rw [List.filter_eq_nil_iff]
  intro x hx
  simp [inRange_false_of_start_false (hall x hx)]

/-! ## The full forward run -/

/-- Forward iteration from a fresh iterator yields exactly the keys
inside the bound predicate, in store (ascending) order. -/
theorem runF_full (cfg : ItCfg α) (ks : List α) (hs : ks.Pairwise (· < ·))
    (p0 : Option (Cursor α)) (n : Nat) (hn : ks.length ≤ n) :
    runForward cfg ks ⟨p0, .BEFORE_START⟩ (n + 1) = ks.filter (inRangeB cfg) := by
  cases hstart : cfg.start with
  | none =>
    cases ks with
    | nil =>
      rw [runF_succ_none cfg [] (by simp [real_next, hstart, seekFirst, ckey]) n]
      rfl
    | cons k rest =>
      have hstep : real_next cfg (k :: rest) ⟨p0, .BEFORE_START⟩
          = nextTail cfg (some ⟨[], k, rest⟩) := by
        simp [real_next, hstart, seekFirst, ckey, nextTail]
      have hfil : (k :: rest).filter (inRangeB cfg)
          = (k :: rest).takeWhile (stopOkB cfg) :=
        filter_inRange_eq_takeWhile_stop hs
          (fun x _ => startOk_true_of_none hstart x)
      by_cases hk : stopOkB cfg k = true
      · have h1 : real_next cfg (k :: rest) ⟨p0, .BEFORE_START⟩
            = (some k, ⟨some ⟨[], k, rest⟩, .IN_BETWEEN⟩) := by
          rw [hstep, nextTail_yield _ rfl hk]
        rw [runF_succ_some cfg (k :: rest) h1 n, hfil,
          List.takeWhile_cons_of_pos hk]
        exact congrArg (k :: ·)
          (runF_inbetween cfg (k :: rest) rest [] k n
            (by simpa using Nat.le_of_succ_le hn))
      · have hk' : stopOkB cfg k = false := by simpa using hk
        have h1 : real_next cfg (k :: rest) ⟨p0, .BEFORE_START⟩
            = (none, ⟨some ⟨[], k, rest⟩, .AFTER_STOP⟩) := by
          rw [hstep, nextTail_stop _ rfl hk']
        rw [runF_succ_none cfg (k :: rest) (by rw [h1]) n, hfil,
          List.takeWhile_cons_of_neg (by simp [hk'])]
  | some s =>
    cases hD : ks.dropWhile (fun k => decide (k < s)) with
    | nil =>
      rw [runF_succ_none cfg ks (by simp [real_next, hstart, cseek, hD, ckey]) n]
      have hall : ∀ x ∈ ks, x < s := by
        intro x hx
        have := (List.dropWhile_eq_nil_iff).mp hD x hx
        simpa using this
      exact (filter_inRange_nil_of_start_false
        (fun x hx => startOk_false_of_lt hstart (hall x hx))).symm
    | cons c a =>
      have hsplit : ks = ks.takeWhile (fun k => decide (k < s)) ++ c :: a := by
        rw [← hD, List.takeWhile_append_dropWhile]
      have hT : ∀ x ∈ ks.takeWhile (fun k => decide (k < s)), x < s := by
        intro x hx
        simpa using List.mem_takeWhile_imp hx
      have hsc : s ≤ c := by
        have := dropWhile_cons_head_false ks c a hD
        simpa using this
      have hsorted2 : (c :: a).Pairwise (· < ·) :=
        (List.pairwise_append.mp (hsplit ▸ hs)).2.1
      have hTfil :
          (ks.takeWhile (fun k => decide (k < s))).filter (inRangeB cfg) = [] :=
        filter_inRange_nil_of_start_false
          (fun x hx => startOk_false_of_lt hstart (hT x hx))
      by_cases hskip : cfg.include_start = false ∧ c = s
      · -- the excluded-start skip branch of `real_next`
        have hcond : ¬ cfg.include_start ∧ cmpInt c s = 0 := by
          refine ⟨by simp [hskip.1], (cmpInt_eq_zero_iff c s).mpr hskip.2⟩
        have hcfalse : startOkB cfg c = false := by
          unfold startOkB
          rw [hstart, hskip.1]
          simp [hskip.2]
        cases a with
        | nil =>
          rw [runF_succ_none cfg ks
            (by simp [real_next, hstart, cseek, hD, ckey, hcond, onext, cnext]) n]
          rw [hsplit, List.filter_append, hTfil, List.nil_append]
          simp [inRange_false_of_start_false hcfalse]
        | cons x a' =>
          have hstep : real_next cfg ks ⟨p0, .BEFORE_START⟩
              = nextTail cfg
                  (some ⟨c :: (ks.takeWhile (fun k => decide (k < s))).reverse,
                    x, a'⟩) := by
            simp [real_next, hstart, cseek, hD, ckey, hcond, onext, cnext, nextTail]
          have hxgt : ∀ y ∈ x :: a', startOkB cfg y = true := by
            intro y hy
            have hcy : c < y := (List.pairwise_cons.mp hsorted2).1 y hy
            exact startOk_true_of_gt hstart (hskip.2 ▸ hcy)
          have hfil : ks.filter (inRangeB cfg)
              = (x :: a').takeWhile (stopOkB cfg) := by
            rw [hsplit, List.filter_append, hTfil, List.nil_append,
              List.filter_cons_of_neg (by simp [inRange_false_of_start_false hcfalse])]
            exact filter_inRange_eq_takeWhile_stop
              (List.pairwise_cons.mp hsorted2).2 hxgt
          by_cases hx : stopOkB cfg x = true
          · have h1 : real_next cfg ks ⟨p0, .BEFORE_START⟩
                = (some x,
                   ⟨some ⟨c :: (ks.takeWhile (fun k => decide (k < s))).reverse,
                     x, a'⟩, .IN_BETWEEN⟩) := by
              rw [hstep, nextTail_yield _ rfl hx]
            rw [runF_succ_some cfg ks h1 n, hfil, List.takeWhile_cons_of_pos hx]
            refine congrArg (x :: ·) (runF_inbetween cfg ks a' _ x n ?_)
            have : a'.length < ks.length := by
              rw [hsplit]
              simp [List.length_append]
              omega
            omega
          · have hx' : stopOkB cfg x = false := by simpa using hx
            have h1 : real_next cfg ks ⟨p0, .BEFORE_START⟩
                = (none,
                   ⟨some ⟨c :: (ks.takeWhile (fun k => decide (k < s))).reverse,
                     x, a'⟩, .AFTER_STOP⟩) := by
              rw [hstep, nextTail_stop _ rfl hx']
            rw [runF_succ_none cfg ks (by rw [h1]) n, hfil,
              List.takeWhile_cons_of_neg (by simp [hx'])]
      · -- no skip: either the start bound is inclusive or `c ≠ s`
        have hcond : ¬ (¬ cfg.include_start ∧ cmpInt c s = 0) := by
          intro hcon
          rcases hcon with ⟨h1, h2⟩
          exact hskip ⟨by simpa using h1, (cmpInt_eq_zero_iff c s).mp h2⟩
        have hstep : real_next cfg ks ⟨p0, .BEFORE_START⟩
            = nextTail cfg
                (some ⟨(ks.takeWhile (fun k => decide (k < s))).reverse, c, a⟩) := by
          simp [real_next, hstart, cseek, hD, ckey, nextTail]
          intro h1 h2
          exact ((hcond ⟨by simp [h1], h2⟩).elim)
        have hcok : startOkB cfg c = true := by
          cases hinc : cfg.include_start
          · have hcs : c ≠ s := by
              intro h
              exact hskip ⟨hinc, h⟩
            exact startOk_true_of_gt hstart (lt_of_le_of_ne hsc (Ne.symm hcs))
          · exact startOk_true_incl hstart hinc hsc
        have hcall : ∀ y ∈ c :: a, startOkB cfg y = true := by
          intro y hy
          rcases List.mem_cons.mp hy with rfl | hy'
          · exact hcok
          · exact startOkB_mono hcok
              (le_of_lt ((List.pairwise_cons.mp hsorted2).1 y hy'))
        have hfil : ks.filter (inRangeB cfg)
            = (c :: a).takeWhile (stopOkB cfg) := by
          rw [hsplit, List.filter_append, hTfil, List.nil_append]
          exact filter_inRange_eq_takeWhile_stop hsorted2 hcall
        by_cases hc : stopOkB cfg c = true
        · have h1 : real_next cfg ks ⟨p0, .BEFORE_START⟩
              = (some c,
                 ⟨some ⟨(ks.takeWhile (fun k => decide (k < s))).reverse, c, a⟩,
                  .IN_BETWEEN⟩) := by
            rw [hstep, nextTail_yield _ rfl hc]
          rw [runF_succ_some cfg ks h1 n, hfil, List.takeWhile_cons_of_pos hc]
          refine congrArg (c :: ·) (runF_inbetween cfg ks a _ c n ?_)
          have : a.length < ks.length := by
            rw [hsplit]
            simp [List.length_append]
            omega
          omega
        · have hc' : stopOkB cfg c = false := by simpa using hc
          have h1 : real_next cfg ks ⟨p0, .BEFORE_START⟩
              = (none,
                 ⟨some ⟨(ks.takeWhile (fun k => decide (k < s))).reverse, c, a⟩,
                  .AFTER_STOP⟩) := by
            rw [hstep, nextTail_stop _ rfl hc']
          rw [runF_succ_none cfg ks (by rw [h1]) n, hfil,
            List.takeWhile_cons_of_neg (by simp [hc'])]

/-! ## Reverse traversal characterization -/

theorem runR_succ_some (cfg : ItCfg α) (ks : List α) {it : ItPos α} {k : α}
    {it' : ItPos α} (h : real_prev cfg ks it = (some k, it')) (n : Nat) :
    runReverse cfg ks it (n + 1) = k :: runReverse cfg ks it' n := by
  show (match real_prev cfg ks it with
        | (none, _) => []
        | (some k, it') => k :: runReverse cfg ks it' n) = _
  rw [h]

theorem runR_succ_none (cfg : ItCfg α) (ks : List α) {it : ItPos α}
    (h : (real_prev cfg ks it).1 = none) (n : Nat) :
    runReverse cfg ks it (n + 1) = [] := by
  show (match real_prev cfg ks it with
        | (none, _) => []
        | (some k, it') => k :: runReverse cfg ks it' n) = _
  have h2 : real_prev cfg ks it = (none, (real_prev cfg ks it).2) := by
    rw [← h]
  rw [h2]

theorem runR_before_start (cfg : ItCfg α) (ks : List α)
    (p : Option (Cursor α)) (n : Nat) :
    runReverse cfg ks ⟨p, .BEFORE_START⟩ n = [] := by
  cases n with
  | zero => rfl
  | succ m => exact runR_succ_none cfg ks (by simp [real_prev]) m

theorem real_prev_inbetween (cfg : ItCfg α) (ks : List α)
    (p : Option (Cursor α)) :
    real_prev cfg ks ⟨p, .IN_BETWEEN⟩ = prevTail cfg p := rfl

theorem prevTail_before_nil (cfg : ItCfg α) (k : α) (a : List α) :
    prevTail cfg (some ⟨[], k, a⟩) = (some k, ⟨none, .BEFORE_START⟩) := by
  simp [prevTail, ckey, oprev, cprev]

theorem prevTail_cons_ok {cfg : ItCfg α} {x : α} (b' a : List α) (k : α)
    (hok : startOkB cfg x = true) :
    prevTail cfg (some ⟨x :: b', k, a⟩)
      = (some k, ⟨some ⟨b', x, k :: a⟩, .IN_BETWEEN⟩) := by
  cases hstart : cfg.start with
  | none => simp [prevTail, ckey, oprev, cprev, hstart]
  | some s =>
    have hg : cmpInt x s ≥ (if cfg.include_start then 0 else 1) :=
      (start_guard_iff hstart x).mpr hok
    simp [prevTail, ckey, oprev, cprev, hstart, hg]

theorem prevTail_cons_bad {cfg : ItCfg α} {x : α} (b' a : List α) (k : α)
    (hbad : startOkB cfg x = false) :
    prevTail cfg (some ⟨x :: b', k, a⟩)
      = (some k, ⟨some ⟨b', x, k :: a⟩, .BEFORE_START⟩) := by
  cases hstart : cfg.start with
  | none => rw [startOk_true_of_none hstart] at hbad; cases hbad
  | some s =>
    have hg : ¬ (cmpInt x s ≥ (if cfg.include_start then 0 else 1)) := by
      rw [start_guard_iff hstart]
      simp [hbad]
    simp [prevTail, ckey, oprev, cprev, hstart, hg]

/-- From `IN_BETWEEN`, the remaining reverse yields are the current key
followed by the in-start-bound portion of the keys before the cursor
(which are stored nearest-first, i.e. in descending key order). -/
theorem runR_inbetween (cfg : ItCfg α) (ks : List α) :
    ∀ (b a : List α) (k : α) (n : Nat), b.length < n →
      runReverse cfg ks ⟨some ⟨b, k, a⟩, .IN_BETWEEN⟩ n
        = k :: b.takeWhile (startOkB cfg) := by
  intro b
  induction b with
  | nil =>
    intro a k n hn
    cases n with
    | zero => simp at hn
    | succ m =>
      rw [runR_succ_some cfg ks
        (by rw [real_prev_inbetween, prevTail_before_nil]) m]
      rw [runR_before_start]
      rfl
  | cons x b' ih =>
    intro a k n hn
    cases n with
    | zero => simp at hn
    | succ m =>
      by_cases hx : startOkB cfg x = true
      · rw [runR_succ_some cfg ks
          (by rw [real_prev_inbetween, prevTail_cons_ok b' a k hx]) m]
        rw [ih (k :: a) x m (by simpa using Nat.lt_of_succ_lt_succ hn),
          List.takeWhile_cons_of_pos hx]
      · have hx' : startOkB cfg x = false := by simpa using hx
        rw [runR_succ_some cfg ks
          (by rw [real_prev_inbetween, prevTail_cons_bad b' a k hx']) m]
        rw [runR_before_start, List.takeWhile_cons_of_neg (by simp [hx'])]

/-! ## The `AFTER_STOP` repositioning -/

/-- The repositioning dance of `real_prev` lands exactly on the last key
passing the stop bound (with the keys before it behind the cursor and
the out-of-bound tail ahead of it), or is invalid if there is none. -/
theorem reposition_eq (cfg : ItCfg α) (ks : List α) (hs : ks.Pairwise (· < ·)) :
    reposition cfg ks =
      match (ks.takeWhile (stopOkB cfg)).reverse with
      | [] => none
      | m :: br => some ⟨br, m, ks.dropWhile (stopOkB cfg)⟩ := by
  cases hstop : cfg.stop with
  | none =>
    have ht : ks.takeWhile (stopOkB cfg) = ks :=
      List.takeWhile_eq_self_iff.mpr (fun x _ => by simp [stopOkB, hstop])
    have hd : ks.dropWhile (stopOkB cfg) = [] :=
      List.dropWhile_eq_nil_iff.mpr (fun x _ => by simp [stopOkB, hstop])
    rw [ht, hd]
    cases hrev : ks.reverse with
    | nil => simp [reposition, hstop, seekLast, hrev]
    | cons k r => simp [reposition, hstop, seekLast, hrev]
  | some t =>
    cases hinc : cfg.include_stop with
    | false =>
      have hpred : stopOkB cfg = fun k => decide (k < t) :=
        funext (fun k => by simp [stopOkB, hstop, hinc])
      rw [hpred]
      cases hD : ks.dropWhile (fun k => decide (k < t)) with
      | nil =>
        have hall : ∀ x ∈ ks, x < t := by
          intro x hx
          simpa using (List.dropWhile_eq_nil_iff).mp hD x hx
        have ht : ks.takeWhile (fun k => decide (k < t)) = ks :=
          List.takeWhile_eq_self_iff.mpr (fun x hx => by simpa using hall x hx)
        rw [ht]
        cases hrev : ks.reverse with
        | nil => simp [reposition, hstop, cseek, hD, ckey, seekLast, hrev]
        | cons l r =>
          have hl : l < t := by
            refine hall l ?_
            rw [← List.mem_reverse, hrev]
            exact List.mem_cons_self l r
          have hcmp : ¬ (cmpInt l t > 0) := by
            rw [cmpInt_pos_iff]
            exact not_lt.mpr (le_of_lt hl)
          simp [reposition, hstop, cseek, hD, ckey, seekLast, hrev, hinc, hcmp]
      | cons c a =>
        cases hTr : (ks.takeWhile (fun k => decide (k < t))).reverse with
        | nil =>
          simp [reposition, hstop, cseek, hD, ckey, hinc, oprev, cprev, hTr]
        | cons y br =>
          have hy : y < t := by
            have hyT : y ∈ ks.takeWhile (fun k => decide (k < t)) := by
              rw [← List.mem_reverse, hTr]
              exact List.mem_cons_self y br
            simpa using List.mem_takeWhile_imp hyT
          have hcmp : ¬ (cmpInt y t > 0) := by
            rw [cmpInt_pos_iff]
            exact not_lt.mpr (le_of_lt hy)
          simp [reposition, hstop, cseek, hD, ckey, hinc, oprev, cprev, hTr, hcmp]
    | true =>
      have hpred : stopOkB cfg = fun k => decide (k ≤ t) :=
        funext (fun k => by simp [stopOkB, hstop, hinc])
      rw [hpred]
      cases hD : ks.dropWhile (fun k => decide (k < t)) with
      | nil =>
        have hall : ∀ x ∈ ks, x < t := by
          intro x hx
          simpa using (List.dropWhile_eq_nil_iff).mp hD x hx
        have ht : ks.takeWhile (fun k => decide (k ≤ t)) = ks :=
          List.takeWhile_eq_self_iff.mpr
            (fun x hx => by simpa using le_of_lt (hall x hx))
        have hd : ks.dropWhile (fun k => decide (k ≤ t)) = [] :=
          List.dropWhile_eq_nil_iff.mpr
            (fun x hx => by simpa using le_of_lt (hall x hx))
        rw [ht, hd]
        cases hrev : ks.reverse with
        | nil => simp [reposition, hstop, cseek, hD, ckey, seekLast, hrev]
        | cons l r =>
          have hl : l < t := by
            refine hall l ?_
            rw [← List.mem_reverse, hrev]
            exact List.mem_cons_self l r
          have hcmp : ¬ (cmpInt l t > 0) := by
            rw [cmpInt_pos_iff]
            exact not_lt.mpr (le_of_lt hl)
          simp [reposition, hstop, cseek, hD, ckey, seekLast, hrev, hinc, hcmp]
      | cons c a =>
        have hsplit : ks = ks.takeWhile (fun k => decide (k < t)) ++ c :: a := by
          rw [← hD, List.takeWhile_append_dropWhile]
        have hT : ∀ x ∈ ks.takeWhile (fun k => decide (k < t)), x < t := by
          intro x hx
          simpa using List.mem_takeWhile_imp hx
        have htc : t ≤ c := by
          have := dropWhile_cons_head_false ks c a hD
          simpa using this
        by_cases hct : t < c
        · -- seeked entry is strictly past the stop key: step back once
          have hQsplit := @takeWhile_dropWhile_split α _ (fun k => decide (k ≤ t))
            (ks.takeWhile (fun k => decide (k < t))) (c :: a)
            (fun x hx => by simpa using le_of_lt (hT x hx))
            (fun c' a' h => by
              cases h
              simpa using not_le.mpr hct)
          have hQ1 := hQsplit.1
          have hQ2 := hQsplit.2
          rw [← hsplit] at hQ1 hQ2
          rw [hQ1, hQ2]
          cases hTr : (ks.takeWhile (fun k => decide (k < t))).reverse with
          | nil =>
            simp [reposition, hstop, cseek, hD, ckey, hinc, oprev, cprev, hTr,
              (cmpInt_pos_iff c t).mpr hct]
          | cons y br =>
            have hy : y < t := by
              have hyT : y ∈ ks.takeWhile (fun k => decide (k < t)) := by
                rw [← List.mem_reverse, hTr]
                exact List.mem_cons_self y br
              simpa using List.mem_takeWhile_imp hyT
            have hcmp2 : ¬ (cmpInt y t > 0) := by
              rw [cmpInt_pos_iff]
              exact not_lt.mpr (le_of_lt hy)
            simp [reposition, hstop, cseek, hD, ckey, hinc, oprev, cprev, hTr,
              (cmpInt_pos_iff c t).mpr hct, hcmp2]
        · -- seeked entry equals the stop key: keep it
          have hceq : c = t := le_antisymm (not_lt.mp hct) htc
          have hcross : ∀ x ∈ a, c < x := by
            have h2 : (c :: a).Pairwise (· < ·) :=
              (List.pairwise_append.mp (hsplit ▸ hs)).2.1
            exact (List.pairwise_cons.mp h2).1
          have hQsplit := @takeWhile_dropWhile_split α _ (fun k => decide (k ≤ t))
            (ks.takeWhile (fun k => decide (k < t)) ++ [c]) a
            (fun x hx => by
              rcases List.mem_append.mp hx with hx' | hx'
              · simpa using le_of_lt (hT x hx')
              · rcases List.mem_singleton.mp hx' with rfl
                simp [hceq])
            (fun c' a' h => by
              cases h
              have := hcross c' (by simp)
              rw [hceq] at this
              simpa using not_le.mpr this)
          have happ : (ks.takeWhile (fun k => decide (k < t)) ++ [c]) ++ a
              = ks.takeWhile (fun k => decide (k < t)) ++ c :: a := by
            simp
          have hQ1 := hQsplit.1
          have hQ2 := hQsplit.2
          rw [happ, ← hsplit] at hQ1 hQ2
          rw [hQ1, hQ2]
          have hcmp : ¬ (cmpInt c t > 0) := by
            rw [cmpInt_pos_iff]
            exact hct
          simp [reposition, hstop, cseek, hD, ckey, hinc, hcmp]

theorem inRange_eq_start_of_stopOk {cfg : ItCfg α} {x : α}
    (h : stopOkB cfg x = true) : inRangeB cfg x = startOkB cfg x := by
  unfold inRangeB
  rw [h, Bool.and_true]

/-- The full reverse run: the filtered keys in descending order, except
that the singleton-window-at-inclusive-start case yields nothing. -/
theorem runR_full (cfg : ItCfg α) (ks : List α) (hs : ks.Pairwise (· < ·))
    (p0 : Option (Cursor α)) (n : Nat) (hn : ks.length ≤ n) :
    runReverse cfg ks ⟨p0, .AFTER_STOP⟩ (n + 1)
      = if Econd cfg ks = true then [] else (ks.filter (inRangeB cfg)).reverse := by
  have hTtrue : ∀ x ∈ ks.takeWhile (stopOkB cfg), stopOkB cfg x = true :=
    fun x hx => List.mem_takeWhile_imp hx
  have hfil : ks.filter (inRangeB cfg)
      = (ks.takeWhile (stopOkB cfg)).filter (startOkB cfg) := by
    conv_lhs => rw [← List.takeWhile_append_dropWhile (stopOkB cfg) ks]
    rw [List.filter_append]
    have hD0 : (ks.dropWhile (stopOkB cfg)).filter (inRangeB cfg) = [] := by
      rw [List.filter_eq_nil_iff]
      intro x hx
      simp [inRange_false_of_stop_false (all_stop_false_of_mem_dropWhile hs x hx)]
    rw [hD0, List.append_nil]
    exact List.filter_congr (fun x hx => inRange_eq_start_of_stopOk (hTtrue x hx))
  cases hTr : (ks.takeWhile (stopOkB cfg)).reverse with
  | nil =>
    have hT0 : ks.takeWhile (stopOkB cfg) = [] := by simpa using hTr
    have hrun : runReverse cfg ks ⟨p0, .AFTER_STOP⟩ (n + 1) = [] := by
      refine runR_succ_none cfg ks ?_ n
      simp [real_prev, reposition_eq cfg ks hs, hTr, ckey]
    have hfil0 : ks.filter (inRangeB cfg) = [] := by
      rw [hfil, hT0]
      rfl
    have hE : Econd cfg ks = false := by
      unfold Econd
      cases cfg.start with
      | none => rfl
      | some s => simp [hfil0]
    rw [hrun, hE]
    simp [hfil0]
  | cons m br =>
    have hTm : ks.takeWhile (stopOkB cfg) = br.reverse ++ [m] := by
      rw [← List.reverse_reverse (ks.takeWhile (stopOkB cfg)), hTr]
      simp
    have hrepos : reposition cfg ks
        = some ⟨br, m, ks.dropWhile (stopOkB cfg)⟩ := by
      rw [reposition_eq cfg ks hs, hTr]
    have hmstop : stopOkB cfg m = true :=
      hTtrue m (by rw [hTm]; simp)
    have hTsorted : (ks.takeWhile (stopOkB cfg)).Pairwise (· < ·) :=
      List.Pairwise.sublist (List.takeWhile_sublist _) hs
    have hbrlt : ∀ x ∈ br, x < m := by
      have h2 := hTm ▸ hTsorted
      have h3 := (List.pairwise_append.mp h2).2.2
      intro x hx
      exact h3 x (by simpa using hx) m (by simp)
    have hbrdesc : br.Pairwise (· > ·) := by
      have h2 := hTm ▸ hTsorted
      exact List.pairwise_reverse.mp (List.pairwise_append.mp h2).1
    have hbrn : br.length < n + 1 := by
      have h1 : (ks.takeWhile (stopOkB cfg)).length ≤ ks.length :=
        (List.takeWhile_sublist _).length_le
      rw [hTm] at h1
      simp at h1
      omega
    cases hstart : cfg.start with
    | none =>
      have hstep : real_prev cfg ks ⟨p0, .AFTER_STOP⟩
          = prevTail cfg (some ⟨br, m, ks.dropWhile (stopOkB cfg)⟩) := by
        simp [real_prev, hrepos, ckey, hstart]
      have hrun : runReverse cfg ks ⟨p0, .AFTER_STOP⟩ (n + 1)
          = runReverse cfg ks
              ⟨some ⟨br, m, ks.dropWhile (stopOkB cfg)⟩, .IN_BETWEEN⟩ (n + 1) := by
        show (match real_prev cfg ks ⟨p0, .AFTER_STOP⟩ with
              | (none, _) => []
              | (some k, it') => k :: runReverse cfg ks it' n)
            = (match real_prev cfg ks
                  ⟨some ⟨br, m, ks.dropWhile (stopOkB cfg)⟩, .IN_BETWEEN⟩ with
              | (none, _) => []
              | (some k, it') => k :: runReverse cfg ks it' n)
        rw [hstep, real_prev_inbetween]
      rw [hrun, runR_inbetween cfg ks br _ m (n + 1) hbrn]
      have hE : Econd cfg ks = false := by
        unfold Econd
        rw [hstart]
      rw [hE]
      have hTall : (ks.takeWhile (stopOkB cfg)).filter (startOkB cfg)
          = ks.takeWhile (stopOkB cfg) :=
        List.filter_eq_self.mpr
          (fun x _ => by simp [startOk_true_of_none hstart x])
      have hbrall : br.takeWhile (startOkB cfg) = br :=
        List.takeWhile_eq_self_iff.mpr
          (fun x _ => by simp [startOk_true_of_none hstart x])
      simp only [if_false, Bool.false_eq_true]
      rw [hfil, hTall, hbrall, ← hTr]
    | some s =>
      by_cases hms : m ≤ s
      · -- the start-check of the AFTER_STOP branch fires: no yield
        have hrun : runReverse cfg ks ⟨p0, .AFTER_STOP⟩ (n + 1) = [] := by
          refine runR_succ_none cfg ks ?_ n
          simp [real_prev, hrepos, ckey, hstart, (cmpInt_ge_zero_iff s m).mpr hms]
        by_cases hEc : cfg.include_start = true ∧ m = s
        · have h1 : (br.reverse).filter (startOkB cfg) = [] := by
            rw [List.filter_eq_nil_iff]
            intro x hx
            have hxm : x < m := hbrlt x (by simpa using hx)
            simp [startOk_false_of_lt hstart (hEc.2 ▸ hxm)]
          have hm1 : startOkB cfg m = true :=
            startOk_true_incl hstart hEc.1 (le_of_eq hEc.2.symm)
          have hfil1 : ks.filter (inRangeB cfg) = [s] := by
            rw [hfil, hTm, List.filter_append, h1, List.nil_append, ← hEc.2]
            simp [hm1]
          have hE : Econd cfg ks = true := by
            unfold Econd
            rw [hstart]
            simp [hEc.1, hfil1]
          rw [hrun, hE]
          simp
        · have hm0 : startOkB cfg m = false := by
            cases hinc : cfg.include_start with
            | false =>
              unfold startOkB
              rw [hstart, hinc]
              simp [not_lt.mpr hms]
            | true =>
              have hne : m ≠ s := fun h => hEc ⟨hinc, h⟩
              exact startOk_false_of_lt hstart (lt_of_le_of_ne hms hne)
          have hfil0 : ks.filter (inRangeB cfg) = [] := by
            rw [hfil, hTm, List.filter_append]
            have h1 : (br.reverse).filter (startOkB cfg) = [] := by
              rw [List.filter_eq_nil_iff]
              intro x hx
              have hxm : x < m := hbrlt x (by simpa using hx)
              simp [startOk_false_of_lt hstart (lt_of_lt_of_le hxm hms)]
            rw [h1]
            simp [hm0]
          have hE : Econd cfg ks = false := by
            unfold Econd
            rw [hstart]
            simp [hfil0]
          rw [hrun, hE]
          simp [hfil0]
      · -- the repositioned entry is strictly after the start key: yield
        have hsm : s < m := not_le.mp hms
        have hguard : ¬ (cmpInt s m ≥ 0) := by
          rw [cmpInt_ge_zero_iff]
          exact hms
        have hstep : real_prev cfg ks ⟨p0, .AFTER_STOP⟩
            = prevTail cfg (some ⟨br, m, ks.dropWhile (stopOkB cfg)⟩) := by
          simp [real_prev, hrepos, ckey, hstart, hguard]
        have hrun : runReverse cfg ks ⟨p0, .AFTER_STOP⟩ (n + 1)
            = runReverse cfg ks
                ⟨some ⟨br, m, ks.dropWhile (stopOkB cfg)⟩, .IN_BETWEEN⟩ (n + 1) := by
          show (match real_prev cfg ks ⟨p0, .AFTER_STOP⟩ with
                | (none, _) => []
                | (some k, it') => k :: runReverse cfg ks it' n)
              = (match real_prev cfg ks
                    ⟨some ⟨br, m, ks.dropWhile (stopOkB cfg)⟩, .IN_BETWEEN⟩ with
                | (none, _) => []
                | (some k, it') => k :: runReverse cfg ks it' n)
          rw [hstep, real_prev_inbetween]
        rw [hrun, runR_inbetween cfg ks br _ m (n + 1) hbrn]
        have hfil2 : ks.filter (inRangeB cfg)
            = (br.reverse.filter (startOkB cfg)) ++ [m] := by
          rw [hfil, hTm, List.filter_append]
          simp [startOk_true_of_gt hstart hsm]
        have hne : ¬ (ks.filter (inRangeB cfg) = [s]) := by
          rw [hfil2]
          intro h
          have hm2 : m ∈ ([s] : List α) := by
            rw [← h]
            simp
          have : m = s := by simpa using hm2
          exact absurd (this ▸ hsm) (lt_irrefl s)
        have hE : Econd cfg ks = false := by
          unfold Econd
          rw [hstart]
          simp [hne]
        rw [hE]
        simp only [if_false, Bool.false_eq_true]
        rw [hfil2, List.reverse_append, List.filter_reverse, List.reverse_reverse]
        simp only [List.reverse_cons, List.reverse_nil, List.nil_append,
          List.singleton_append]
        refine congrArg (m :: ·) ?_
        exact (filter_eq_takeWhile_of_pairwise
          (fun a b hab hb => startOkB_mono hb (le_of_lt hab)) br hbrdesc).symm ▸ rfl

/-! ## Cursor bookkeeping for the no-seek invariant -/

theorem ckey_some (c : Cursor α) : ckey (some c) = some c.cur := rfl

theorem cnext_mem {c c' : Cursor α} (h : cnext c = some c') : memC c' = memC c := by
  unfold cnext at h
  cases ha : c.after with
  | nil => rw [ha] at h; cases h
  | cons x a' =>
    rw [ha] at h
    cases h
    simp [memC, ha]

theorem cprev_mem {c c' : Cursor α} (h : cprev c = some c') : memC c' = memC c := by
  unfold cprev at h
  cases hb : c.before with
  | nil => rw [hb] at h; cases h
  | cons y b' =>
    rw [hb] at h
    cases h
    simp [memC, hb]

theorem seekFirst_mem {ks : List α} {c : Cursor α} (h : seekFirst ks = some c) :
    memC c = ks := by
  unfold seekFirst at h
  cases ks with
  | nil => cases h
  | cons k rest =>
    cases h
    simp [memC]

theorem seekLast_mem {ks : List α} {c : Cursor α} (h : seekLast ks = some c) :
    memC c = ks := by
  unfold seekLast at h
  cases hrev : ks.reverse with
  | nil => rw [hrev] at h; cases h
  | cons k r =>
    rw [hrev] at h
    cases h
    have : ks = (k :: r).reverse := by rw [← hrev, List.reverse_reverse]
    rw [this]
    simp [memC]

theorem cseek_mem [LinearOrder α] {ks : List α} {t : α} {c : Cursor α}
    (h : cseek ks t = some c) : memC c = ks := by
  unfold cseek at h
  cases hd : ks.dropWhile (fun k => decide (k < t)) with
  | nil => rw [hd] at h; cases h
  | cons x a =>
    rw [hd] at h
    cases h
    simp only [memC, List.reverse_reverse]
    rw [← hd, List.takeWhile_append_dropWhile]

theorem memC_cur_lt_after_head {ks : List α} {c : Cursor α} {x : α} {a' : List α}
    (hs : ks.Pairwise (· < ·)) (hmem : memC c = ks) (hx : c.after = x :: a') :
    c.cur < x := by
  rw [← hmem] at hs
  unfold memC at hs
  have h2 := (List.pairwise_append.mp hs).2.1
  rw [hx] at h2
  exact (List.pairwise_cons.mp h2).1 x (by simp)

theorem memC_before_head_lt_cur {ks : List α} {c : Cursor α} {y : α} {b' : List α}
    (hs : ks.Pairwise (· < ·)) (hmem : memC c = ks) (hy : c.before = y :: b') :
    y < c.cur := by
  rw [← hmem] at hs
  unfold memC at hs
  have h3 := (List.pairwise_append.mp hs).2.2
  refine h3 y ?_ c.cur (by simp)
  rw [hy]
  simp

theorem memC_before_all_lt_cur {ks : List α} {c : Cursor α} {y : α}
    (hs : ks.Pairwise (· < ·)) (hmem : memC c = ks) (hy : y ∈ c.before) :
    y < c.cur := by
  rw [← hmem] at hs
  unfold memC at hs
  have h3 := (List.pairwise_append.mp hs).2.2
  exact h3 y (by simpa using hy) c.cur (by simp)

/-! ## Invariant preservation -/

theorem nextTail_inv {cfg : ItCfg α} {ks : List α} (c : Cursor α)
    (hmem : memC c = ks) (hstart : startOkB cfg c.cur = true) :
    NoSeekInv cfg ks (nextTail cfg (some c)).2 := by
  by_cases hstop : stopOkB cfg c.cur = true
  · rw [nextTail_yield c rfl hstop]
    exact ⟨fun c' hc' => (Option.some.inj hc') ▸ hmem, ⟨c, rfl, hstart, hstop⟩⟩
  · rw [nextTail_stop c rfl (by simpa using hstop)]
    exact ⟨fun c' hc' => (Option.some.inj hc') ▸ hmem, trivial⟩

theorem prevTail_inv {cfg : ItCfg α} {ks : List α} (hs : ks.Pairwise (· < ·))
    (c : Cursor α) (hmem : memC c = ks) (hstop : stopOkB cfg c.cur = true) :
    NoSeekInv cfg ks (prevTail cfg (some c)).2 := by
  cases hb : c.before with
  | nil =>
    have : prevTail cfg (some c) = (some c.cur, ⟨none, .BEFORE_START⟩) := by
      have hc : c = ⟨[], c.cur, c.after⟩ := by
        cases c
        simp_all
      rw [hc]
      exact prevTail_before_nil cfg _ _
    rw [this]
    exact ⟨fun c' hc' => (nomatch hc'), trivial⟩
  | cons y b' =>
    have hc : c = ⟨y :: b', c.cur, c.after⟩ := by
      cases c
      simp_all
    have hmem' : memC (⟨b', y, c.cur :: c.after⟩ : Cursor α) = ks := by
      rw [← hmem, hc]
      simp [memC]
    have hylt : y < c.cur := memC_before_head_lt_cur hs hmem hb
    have hystop : stopOkB cfg y = true := stopOkB_anti hstop (le_of_lt hylt)
    by_cases hok : startOkB cfg y = true
    · have : prevTail cfg (some c)
          = (some c.cur, ⟨some ⟨b', y, c.cur :: c.after⟩, .IN_BETWEEN⟩) := by
        rw [hc]
        exact prevTail_cons_ok b' c.after c.cur hok
      rw [this]
      exact ⟨fun c' hc' => (Option.some.inj hc') ▸ hmem', ⟨_, rfl, hok, hystop⟩⟩
    · have : prevTail cfg (some c)
          = (some c.cur, ⟨some ⟨b', y, c.cur :: c.after⟩, .BEFORE_START⟩) := by
        rw [hc]
        exact prevTail_cons_bad b' c.after c.cur (by simpa using hok)
      rw [this]
      exact ⟨fun c' hc' => (Option.some.inj hc') ▸ hmem', trivial⟩

/-- Stepping a fresh-positioned (`BEFORE_START`) iterator forward
preserves the no-seek invariant, whatever the stale cursor was. -/
theorem real_next_bs_inv (cfg : ItCfg α) (ks : List α)
    (hs : ks.Pairwise (· < ·)) (p0 : Option (Cursor α)) :
    NoSeekInv cfg ks (real_next cfg ks ⟨p0, .BEFORE_START⟩).2 := by
  cases hstart : cfg.start with
  | none =>
    cases ks with
    | nil =>
      have : real_next cfg ([] : List α) ⟨p0, .BEFORE_START⟩
          = (none, ⟨none, .BEFORE_START⟩) := by
        simp [real_next, hstart, seekFirst, ckey]
      rw [this]
      exact ⟨fun c' hc' => (nomatch hc'), trivial⟩
    | cons k rest =>
      have hstep : real_next cfg (k :: rest) ⟨p0, .BEFORE_START⟩
          = nextTail cfg (some ⟨[], k, rest⟩) := by
        simp [real_next, hstart, seekFirst, ckey, nextTail]
      rw [hstep]
      refine nextTail_inv _ ?_ ?_
      · simp [memC]
      · exact startOk_true_of_none hstart _
  | some s =>
    cases hD : ks.dropWhile (fun k => decide (k < s)) with
    | nil =>
      have : real_next cfg ks ⟨p0, .BEFORE_START⟩
          = (none, ⟨none, .BEFORE_START⟩) := by
        simp [real_next, hstart, cseek, hD, ckey]
      rw [this]
      exact ⟨fun c' hc' => (nomatch hc'), trivial⟩
    | cons c a =>
      have hsplit : ks = ks.takeWhile (fun k => decide (k < s)) ++ c :: a := by
        rw [← hD, List.takeWhile_append_dropWhile]
      have hsc : s ≤ c := by
        have := dropWhile_cons_head_false ks c a hD
        simpa using this
      have hsorted2 : (c :: a).Pairwise (· < ·) :=
        (List.pairwise_append.mp (hsplit ▸ hs)).2.1
      by_cases hskip : cfg.include_start = false ∧ c = s
      · have hcond : ¬ cfg.include_start ∧ cmpInt c s = 0 :=
          ⟨by simp [hskip.1], (cmpInt_eq_zero_iff c s).mpr hskip.2⟩
        cases a with
        | nil =>
          have : real_next cfg ks ⟨p0, .BEFORE_START⟩
              = (none, ⟨none, .BEFORE_START⟩) := by
            simp [real_next, hstart, cseek, hD, ckey, hcond, onext, cnext]
          rw [this]
          exact ⟨fun c' hc' => (nomatch hc'), trivial⟩
        | cons x a' =>
          have hstep : real_next cfg ks ⟨p0, .BEFORE_START⟩
              = nextTail cfg
                  (some ⟨c :: (ks.takeWhile (fun k => decide (k < s))).reverse,
                    x, a'⟩) := by
            simp [real_next, hstart, cseek, hD, ckey, hcond, onext, cnext, nextTail]
          rw [hstep]
          refine nextTail_inv _ ?_ ?_
          · simp only [memC, List.reverse_cons, List.reverse_reverse,
              List.append_assoc, List.singleton_append]
            exact hsplit.symm
          · have hcx : c < x := (List.pairwise_cons.mp hsorted2).1 x (by simp)
            exact startOk_true_of_gt hstart (hskip.2 ▸ hcx)
      · have hcond : ¬ (¬ cfg.include_start ∧ cmpInt c s = 0) := by
          intro hcon
          exact hskip ⟨by simpa using hcon.1, (cmpInt_eq_zero_iff c s).mp hcon.2⟩
        have hstep : real_next cfg ks ⟨p0, .BEFORE_START⟩
            = nextTail cfg
                (some ⟨(ks.takeWhile (fun k => decide (k < s))).reverse, c, a⟩) := by
          simp [real_next, hstart, cseek, hD, ckey, nextTail]
          intro h1 h2
          exact ((hcond ⟨by simp [h1], h2⟩).elim)
        rw [hstep]
        refine nextTail_inv _ ?_ ?_
        · simp only [memC, List.reverse_reverse]
          exact hsplit.symm
        · cases hinc : cfg.include_start with
          | false =>
            have hcs : c ≠ s := fun h => hskip ⟨hinc, h⟩
            exact startOk_true_of_gt hstart (lt_of_le_of_ne hsc (Ne.symm hcs))
          | true => exact startOk_true_incl hstart hinc hsc

/-- `real_next` preserves the no-seek invariant. -/
theorem real_next_inv (cfg : ItCfg α) (ks : List α) (hs : ks.Pairwise (· < ·))
    (it : ItPos α) (hinv : NoSeekInv cfg ks it) :
    NoSeekInv cfg ks (real_next cfg ks it).2 := by
  obtain ⟨pos, state⟩ := it
  obtain ⟨hmem, hst⟩ := hinv
  cases state with
  | BEFORE_START => exact real_next_bs_inv cfg ks hs pos
  | AFTER_STOP => exact ⟨hmem, hst⟩
  | IN_BETWEEN_ALREADY_POSITIONED => exact hst.elim
  | IN_BETWEEN =>
    obtain ⟨c, hc, hcs, hct⟩ := hst
    cases hc
    cases ha : c.after with
    | nil =>
      have : real_next cfg ks ⟨some c, .IN_BETWEEN⟩ = (none, ⟨none, .AFTER_STOP⟩) := by
        simp [real_next, onext, cnext, ha, ckey]
      rw [this]
      exact ⟨fun c' hc' => (nomatch hc'), trivial⟩
    | cons x a' =>
      have hstep : real_next cfg ks ⟨some c, .IN_BETWEEN⟩
          = nextTail cfg (some ⟨c.cur :: c.before, x, a'⟩) := by
        simp [real_next, onext, cnext, ha, ckey, nextTail]
      rw [hstep]
      refine nextTail_inv _ ?_ ?_
      · rw [← hmem c rfl]
        simp [memC, ha]
      · exact startOkB_mono hcs (le_of_lt (memC_cur_lt_after_head hs (hmem c rfl) ha))

/-- `real_prev` preserves the no-seek invariant. -/
theorem real_prev_inv (cfg : ItCfg α) (ks : List α) (hs : ks.Pairwise (· < ·))
    (it : ItPos α) (hinv : NoSeekInv cfg ks it) :
    NoSeekInv cfg ks (real_prev cfg ks it).2 := by
  obtain ⟨pos, state⟩ := it
  obtain ⟨hmem, hst⟩ := hinv
  cases state with
  | BEFORE_START => exact ⟨hmem, hst⟩
  | IN_BETWEEN_ALREADY_POSITIONED => exact hst.elim
  | IN_BETWEEN =>
    obtain ⟨c, hc, hcs, hct⟩ := hst
    cases hc
    rw [real_prev_inbetween]
    exact prevTail_inv hs c (hmem c rfl) hct
  | AFTER_STOP =>
    cases hTr : (ks.takeWhile (stopOkB cfg)).reverse with
    | nil =>
      have : real_prev cfg ks ⟨pos, .AFTER_STOP⟩
          = (none, ⟨none, .AFTER_STOP⟩) := by
        simp [real_prev, reposition_eq cfg ks hs, hTr, ckey]
      rw [this]
      exact ⟨fun c' hc' => (nomatch hc'), trivial⟩
    | cons m br =>
      have hTm : ks.takeWhile (stopOkB cfg) = br.reverse ++ [m] := by
        rw [← List.reverse_reverse (ks.takeWhile (stopOkB cfg)), hTr]
        simp
      have hrepos : reposition cfg ks
          = some ⟨br, m, ks.dropWhile (stopOkB cfg)⟩ := by
        rw [reposition_eq cfg ks hs, hTr]
      have hmemc : memC (⟨br, m, ks.dropWhile (stopOkB cfg)⟩ : Cursor α) = ks := by
        simp only [memC]
        rw [show br.reverse ++ m :: ks.dropWhile (stopOkB cfg)
            = (br.reverse ++ [m]) ++ ks.dropWhile (stopOkB cfg) by simp]
        rw [← hTm, List.takeWhile_append_dropWhile]
      have hmstop : stopOkB cfg m = true :=
        List.mem_takeWhile_imp (l := ks) (by rw [hTm]; simp)
      cases hstart : cfg.start with
      | none =>
        have hstep : real_prev cfg ks ⟨pos, .AFTER_STOP⟩
            = prevTail cfg (some ⟨br, m, ks.dropWhile (stopOkB cfg)⟩) := by
          simp [real_prev, hrepos, ckey, hstart]
        rw [hstep]
        exact prevTail_inv hs _ hmemc hmstop
      | some s =>
        by_cases hms : m ≤ s
        · have : real_prev cfg ks ⟨pos, .AFTER_STOP⟩
              = (none, ⟨some ⟨br, m, ks.dropWhile (stopOkB cfg)⟩, .AFTER_STOP⟩) := by
            simp [real_prev, hrepos, ckey, hstart, (cmpInt_ge_zero_iff s m).mpr hms]
          rw [this]
          exact ⟨fun c' hc' => (Option.some.inj hc') ▸ hmemc, trivial⟩
        · have hguard : ¬ (cmpInt s m ≥ 0) := by
            rw [cmpInt_ge_zero_iff]
            exact hms
          have hstep : real_prev cfg ks ⟨pos, .AFTER_STOP⟩
              = prevTail cfg (some ⟨br, m, ks.dropWhile (stopOkB cfg)⟩) := by
            simp [real_prev, hrepos, ckey, hstart, hguard]
          rw [hstep]
          exact prevTail_inv hs _ hmemc hmstop

/-! ## Round-trip: a yield of one direction is re-yielded by the other -/

theorem nextTail_some_inv {cfg : ItCfg α} {p : Option (Cursor α)} {x : α}
    {st : ItPos α} (h : nextTail cfg p = (some x, st)) :
    st = ⟨p, .IN_BETWEEN⟩ ∧ ckey p = some x := by
  cases hp : p with
  | none =>
    rw [hp] at h
    unfold nextTail at h
    simp [ckey] at h
  | some c =>
    rw [hp] at h
    by_cases hstop : stopOkB cfg c.cur = true
    · rw [nextTail_yield c rfl hstop] at h
      injection h with h1 h2
      exact ⟨h2.symm, h1⟩
    · rw [nextTail_stop c rfl (by simpa using hstop)] at h
      simp at h

theorem real_next_some_inv {cfg : ItCfg α} {ks : List α} {it : ItPos α}
    {x : α} {it' : ItPos α} (h : real_next cfg ks it = (some x, it')) :
    it'.state = .IN_BETWEEN ∧ ckey it'.pos = some x := by
  obtain ⟨pos, state⟩ := it
  cases state with
  | AFTER_STOP => simp [real_next] at h
  | IN_BETWEEN =>
    by_cases hn : (ckey (onext pos)).isNone
    · simp [real_next, hn] at h
    · have hstep : real_next cfg ks ⟨pos, .IN_BETWEEN⟩
          = nextTail cfg (onext pos) := by
        simp [real_next, hn]
      rw [hstep] at h
      obtain ⟨hst, hk⟩ := nextTail_some_inv h
      subst hst
      exact ⟨rfl, hk⟩
  | IN_BETWEEN_ALREADY_POSITIONED =>
    have hstep : real_next cfg ks ⟨pos, .IN_BETWEEN_ALREADY_POSITIONED⟩
        = nextTail cfg pos := rfl
    rw [hstep] at h
    obtain ⟨hst, hk⟩ := nextTail_some_inv h
    subst hst
    exact ⟨rfl, hk⟩
  | BEFORE_START =>
    cases hstart : cfg.start with
    | none =>
      cases hp : seekFirst ks with
      | none => simp [real_next, hstart, hp, ckey] at h
      | some c0 =>
        have hstep : real_next cfg ks ⟨pos, .BEFORE_START⟩
            = nextTail cfg (some c0) := by
          simp [real_next, hstart, hp, ckey, nextTail]
        rw [hstep] at h
        obtain ⟨hst, hk⟩ := nextTail_some_inv h
        subst hst
        exact ⟨rfl, hk⟩
    | some s =>
      cases hp : cseek ks s with
      | none => simp [real_next, hstart, hp, ckey] at h
      | some c0 =>
        by_cases hcond : ¬ cfg.include_start ∧ cmpInt c0.cur s = 0
        · cases hp' : onext (some c0) with
          | none =>
            have : real_next cfg ks ⟨pos, .BEFORE_START⟩
                = (none, ⟨none, .BEFORE_START⟩) := by
              simp [real_next, hstart, hp, ckey, hcond, hp']
            rw [this] at h
            simp at h
          | some c1 =>
            have hstep : real_next cfg ks ⟨pos, .BEFORE_START⟩
                = nextTail cfg (some c1) := by
              simp [real_next, hstart, hp, ckey, hcond, hp', nextTail]
            rw [hstep] at h
            obtain ⟨hst, hk⟩ := nextTail_some_inv h
            subst hst
            exact ⟨rfl, hk⟩
        · have hstep : real_next cfg ks ⟨pos, .BEFORE_START⟩
              = nextTail cfg (some c0) := by
            simp [real_next, hstart, hp, ckey, nextTail]
            intro h1 h2
            exact ((hcond ⟨by simp [h1], h2⟩).elim)
          rw [hstep] at h
          obtain ⟨hst, hk⟩ := nextTail_some_inv h
          subst hst
          exact ⟨rfl, hk⟩

theorem prevTail_fst {cfg : ItCfg α} {p : Option (Cursor α)} {x : α}
    (h : ckey p = some x) : (prevTail cfg p).1 = some x := by
  cases hp : p with
  | none =>
    rw [hp] at h
    simp [ckey] at h
  | some c =>
    rw [hp] at h
    have hx : c.cur = x := Option.some.inj h
    cases hb : c.before with
    | nil =>
      have hc : c = ⟨[], c.cur, c.after⟩ := by
        cases c
        simp_all
      rw [hc, prevTail_before_nil]
      simp [hx]
    | cons y b' =>
      have hc : c = ⟨y :: b', c.cur, c.after⟩ := by
        cases c
        simp_all
      by_cases hok : startOkB cfg y = true
      · rw [hc, prevTail_cons_ok b' c.after c.cur hok]
        simp [hx]
      · rw [hc, prevTail_cons_bad b' c.after c.cur (by simpa using hok)]
        simp [hx]

/-- `next()` having just yielded `x`, the opposite call yields `x` again:
the cursor was left on the yielded entry in state `IN_BETWEEN`, and
`real_prev` captures the current entry before moving. -/
theorem next_then_prev (cfg : ItCfg α) (ks : List α) {it : ItPos α} {x : α}
    {it' : ItPos α} (h : real_next cfg ks it = (some x, it')) :
    (real_prev cfg ks it').1 = some x := by
  obtain ⟨hst, hk⟩ := real_next_some_inv h
  obtain ⟨pos', state'⟩ := it'
  have hst' : state' = .IN_BETWEEN := hst
  subst hst'
  rw [real_prev_inbetween]
  exact prevTail_fst hk

theorem startOk_not_lt {cfg : ItCfg α} {s y : α} (h : cfg.start = some s)
    (hok : startOkB cfg y = true) : ¬ (y < s) := by
  unfold startOkB at hok
  rw [h] at hok
  cases hinc : cfg.include_start <;> rw [hinc] at hok <;> simp at hok
  · exact not_lt.mpr (le_of_lt hok)
  · exact not_lt.mpr hok

theorem startOk_false_elim_incl {cfg : ItCfg α} {s y : α} (h : cfg.start = some s)
    (hinc : cfg.include_start = true) (hbad : startOkB cfg y = false) : y < s := by
  unfold startOkB at hbad
  rw [h, hinc] at hbad
  simp at hbad
  exact hbad

theorem startOk_false_elim_excl {cfg : ItCfg α} {s y : α} (h : cfg.start = some s)
    (hinc : cfg.include_start = false) (hbad : startOkB cfg y = false) : y ≤ s := by
  unfold startOkB at hbad
  rw [h, hinc] at hbad
  simp at hbad
  exact hbad

theorem skip_cond_false_of_startOk {cfg : ItCfg α} {s y : α}
    (h : cfg.start = some s) (hok : startOkB cfg y = true) :
    ¬ (¬ cfg.include_start ∧ cmpInt y s = 0) := by
  intro hcon
  have hinc : cfg.include_start = false := by simpa using hcon.1
  have hlt : s < y := by
    unfold startOkB at hok
    rw [h, hinc] at hok
    simpa using hok
  have heq := (cmpInt_eq_zero_iff y s).mp hcon.2
  exact absurd (heq ▸ hlt) (lt_irrefl s)

/-- The central prev-then-next lemma: if `prevTail` (the yielding path
of `real_prev`) just returned the in-window entry `x`, the next physical
forward step returns `x` again, whatever state classification the
backward step settled on. -/
theorem prevTail_then_next (cfg : ItCfg α) (ks : List α)
    (hs : ks.Pairwise (· < ·)) (c : Cursor α) (hmem : memC c = ks)
    (hcs : startOkB cfg c.cur = true) (hct : stopOkB cfg c.cur = true)
    {x : α} {it' : ItPos α} (h : prevTail cfg (some c) = (some x, it')) :
    (real_next cfg ks it').1 = some x := by
  obtain ⟨cb, ccur, caf⟩ := c
  replace hcs : startOkB cfg ccur = true := hcs
  replace hct : stopOkB cfg ccur = true := hct
  have hfst : (prevTail cfg (some ⟨cb, ccur, caf⟩)).1 = some ccur :=
    prevTail_fst rfl
  have hx : x = ccur := by
    rw [h] at hfst
    exact Option.some.inj hfst
  rw [hx] at h ⊢
  cases cb with
  | nil =>
    rw [prevTail_before_nil] at h
    injection h with h1 h2
    subst h2
    have hks : ks = ccur :: caf := by
      rw [← hmem]
      simp [memC]
    subst hks
    cases hstart2 : cfg.start with
    | none =>
      have hstep : real_next cfg (ccur :: caf) ⟨none, .BEFORE_START⟩
          = nextTail cfg (some ⟨[], ccur, caf⟩) := by
        simp [real_next, hstart2, seekFirst, ckey, nextTail]
      rw [hstep, nextTail_yield _ rfl hct]
    | some s =>
      have hnotlt : ¬ (ccur < s) := startOk_not_lt hstart2 hcs
      have hD : (ccur :: caf).dropWhile (fun k => decide (k < s))
          = ccur :: caf := List.dropWhile_cons_of_neg (by simpa using hnotlt)
      have hT : (ccur :: caf).takeWhile (fun k => decide (k < s)) = [] :=
        List.takeWhile_cons_of_neg (by simpa using hnotlt)
      have hcond := skip_cond_false_of_startOk hstart2 hcs
      have hstep : real_next cfg (ccur :: caf) ⟨none, .BEFORE_START⟩
          = nextTail cfg (some ⟨[], ccur, caf⟩) := by
        simp [real_next, hstart2, cseek, hD, hT, ckey, nextTail]
        intro h1 h2
        exact ((hcond ⟨by simp [h1], h2⟩).elim)
      rw [hstep, nextTail_yield _ rfl hct]
  | cons y b' =>
    by_cases hok : startOkB cfg y = true
    · rw [prevTail_cons_ok b' caf ccur hok] at h
      injection h with h1 h2
      subst h2
      have hstep : real_next cfg ks ⟨some ⟨b', y, ccur :: caf⟩, .IN_BETWEEN⟩
          = nextTail cfg (some ⟨y :: b', ccur, caf⟩) := by
        simp [real_next, onext, cnext, ckey, nextTail]
      rw [hstep, nextTail_yield _ rfl hct]
    · have hok' : startOkB cfg y = false := by simpa using hok
      rw [prevTail_cons_bad b' caf ccur hok'] at h
      injection h with h1 h2
      subst h2
      cases hstart2 : cfg.start with
      | none =>
        rw [startOk_true_of_none hstart2 y] at hok'
        cases hok'
      | some s =>
        have hks : ks = b'.reverse ++ y :: ccur :: caf := by
          rw [← hmem]
          simp [memC]
        have hs2 : (b'.reverse ++ y :: ccur :: caf).Pairwise (· < ·) := hks ▸ hs
        have hby : ∀ v ∈ b'.reverse, v < y :=
          fun v hv => (List.pairwise_append.mp hs2).2.2 v hv y (by simp)
        have hnotlt : ¬ (ccur < s) := startOk_not_lt hstart2 hcs
        by_cases hys : y < s
        · -- the re-seek lands directly on the yielded entry
          have hsplit2 := @takeWhile_dropWhile_split α _ (fun k => decide (k < s))
            (b'.reverse ++ [y]) (ccur :: caf)
            (fun v hv => by
              rcases List.mem_append.mp hv with hv' | hv'
              · simpa using lt_trans (hby v hv') hys
              · rcases List.mem_singleton.mp hv' with rfl
                simpa using hys)
            (fun c' a' hcons => by
              cases hcons
              simpa using hnotlt)
          have happ2 : (b'.reverse ++ [y]) ++ ccur :: caf
              = b'.reverse ++ y :: ccur :: caf := by
            simp
          have hT := hsplit2.1
          have hD := hsplit2.2
          rw [happ2, ← hks] at hT hD
          have hcond := skip_cond_false_of_startOk hstart2 hcs
          have hstep : real_next cfg ks ⟨some ⟨b', y, ccur :: caf⟩, .BEFORE_START⟩
              = nextTail cfg (some ⟨(b'.reverse ++ [y]).reverse, ccur, caf⟩) := by
            simp [real_next, hstart2, cseek, hD, hT, ckey, nextTail]
            intro h1 h2
            exact ((hcond ⟨by simp [h1], h2⟩).elim)
          rw [hstep, nextTail_yield _ rfl hct]
        · -- exclusive start bound equal to the entry behind the yield:
          -- the re-seek lands on it and the exclusion skip moves forward
          have hinc : cfg.include_start = false := by
            cases hinc2 : cfg.include_start with
            | true => exact absurd (startOk_false_elim_incl hstart2 hinc2 hok') hys
            | false => rfl
          have hyeq : y = s :=
            le_antisymm (startOk_false_elim_excl hstart2 hinc hok') (not_lt.mp hys)
          have hsplit2 := @takeWhile_dropWhile_split α _ (fun k => decide (k < s))
            b'.reverse (y :: ccur :: caf)
            (fun v hv => by simpa using (hyeq ▸ hby v hv))
            (fun c' a' hcons => by
              cases hcons
              simpa using hys)
          have hT := hsplit2.1
          have hD := hsplit2.2
          rw [← hks] at hT hD
          have hcond : ¬ cfg.include_start ∧ cmpInt y s = 0 :=
            ⟨by simp [hinc], (cmpInt_eq_zero_iff y s).mpr hyeq⟩
          have hstep : real_next cfg ks ⟨some ⟨b', y, ccur :: caf⟩, .BEFORE_START⟩
              = nextTail cfg (some ⟨y :: b', ccur, caf⟩) := by
            simp [real_next, hstart2, cseek, hD, hT, ckey, hcond, onext, cnext,
              nextTail]
          rw [hstep, nextTail_yield _ rfl hct]

/-- `prev()` having just yielded `x` (in a no-seek traversal), the
opposite call yields `x` again: the forward re-seek from whatever state
the backward step left lands back on the yielded entry. -/
theorem prev_then_next (cfg : ItCfg α) (ks : List α) (hs : ks.Pairwise (· < ·))
    {it : ItPos α} {x : α} {it' : ItPos α} (hinv : NoSeekInv cfg ks it)
    (h : real_prev cfg ks it = (some x, it')) :
    (real_next cfg ks it').1 = some x := by
  obtain ⟨pos, state⟩ := it
  obtain ⟨hmem, hst⟩ := hinv
  cases state with
  | BEFORE_START => simp [real_prev] at h
  | IN_BETWEEN_ALREADY_POSITIONED => exact hst.elim
  | IN_BETWEEN =>
    obtain ⟨c, hc, hcs, hct⟩ := hst
    cases hc
    rw [real_prev_inbetween] at h
    exact prevTail_then_next cfg ks hs c (hmem c rfl) hcs hct h
  | AFTER_STOP =>
    cases hTr : (ks.takeWhile (stopOkB cfg)).reverse with
    | nil =>
      have : real_prev cfg ks ⟨pos, .AFTER_STOP⟩
          = (none, ⟨none, .AFTER_STOP⟩) := by
        simp [real_prev, reposition_eq cfg ks hs, hTr, ckey]
      rw [this] at h
      simp at h
    | cons m br =>
      have hTm : ks.takeWhile (stopOkB cfg) = br.reverse ++ [m] := by
        rw [← List.reverse_reverse (ks.takeWhile (stopOkB cfg)), hTr]
        simp
      have hrepos : reposition cfg ks
          = some ⟨br, m, ks.dropWhile (stopOkB cfg)⟩ := by
        rw [reposition_eq cfg ks hs, hTr]
      have hmemc : memC (⟨br, m, ks.dropWhile (stopOkB cfg)⟩ : Cursor α) = ks := by
        simp only [memC]
        rw [show br.reverse ++ m :: ks.dropWhile (stopOkB cfg)
            = (br.reverse ++ [m]) ++ ks.dropWhile (stopOkB cfg) by simp]
        rw [← hTm, List.takeWhile_append_dropWhile]
      have hmstop : stopOkB cfg m = true :=
        List.mem_takeWhile_imp (l := ks) (by rw [hTm]; simp)
      cases hstart2 : cfg.start with
      | none =>
        have hstep : real_prev cfg ks ⟨pos, .AFTER_STOP⟩
            = prevTail cfg (some ⟨br, m, ks.dropWhile (stopOkB cfg)⟩) := by
          simp [real_prev, hrepos, ckey, hstart2]
        rw [hstep] at h
        exact prevTail_then_next cfg ks hs _ hmemc
          (startOk_true_of_none hstart2 _) hmstop h
      | some s =>
        by_cases hms : m ≤ s
        · have : real_prev cfg ks ⟨pos, .AFTER_STOP⟩
              = (none, ⟨some ⟨br, m, ks.dropWhile (stopOkB cfg)⟩, .AFTER_STOP⟩) := by
            simp [real_prev, hrepos, ckey, hstart2,
              (cmpInt_ge_zero_iff s m).mpr hms]
          rw [this] at h
          simp at h
        · have hguard : ¬ (cmpInt s m ≥ 0) := by
            rw [cmpInt_ge_zero_iff]
            exact hms
          have hstep : real_prev cfg ks ⟨pos, .AFTER_STOP⟩
              = prevTail cfg (some ⟨br, m, ks.dropWhile (stopOkB cfg)⟩) := by
            simp [real_prev, hrepos, ckey, hstart2, hguard]
          rw [hstep] at h
          exact prevTail_then_next cfg ks hs _ hmemc
            (startOk_true_of_gt hstart2 (not_le.mp hms)) hmstop h

/-- The no-seek invariant holds at both fresh iterator states. -/
theorem NoSeekInv_init (cfg : ItCfg α) (ks : List α) (st : ItState)
    (h : st = .BEFORE_START ∨ st = .AFTER_STOP) :
    NoSeekInv cfg ks ⟨none, st⟩ := by
  rcases h with rfl | rfl
  · exact ⟨fun c hc => (nomatch hc), trivial⟩
  · exact ⟨fun c hc => (nomatch hc), trivial⟩

/-- The no-seek invariant is preserved along any next/prev traversal. -/
theorem runOps_inv (cfg : ItCfg α) (ks : List α) (hs : ks.Pairwise (· < ·))
    (ops : List NavOp) (it : ItPos α) (hinv : NoSeekInv cfg ks it) :
    NoSeekInv cfg ks (runOps cfg ks ops it) := by
  induction ops generalizing it with
  | nil => exact hinv
  | cons op ops' ih =>
    show NoSeekInv cfg ks (runOps cfg ks ops' (stepOp cfg ks it op))
    cases op with
    | nextOp => exact ih _ (real_next_inv cfg ks hs it hinv)
    | prevOp => exact ih _ (real_prev_inv cfg ks hs it hinv)

end Lemmas

/-- A list with a unique occurrence of `x` splits uniquely at `x`. -/
theorem split_at_unique {β : Type} {x : β} :
    ∀ (A R pre post : List β), x ∉ A → x ∉ R →
      A ++ x :: R = pre ++ x :: post → pre = A ∧ post = R := by
  intro A
  induction A with
  | nil =>
    intro R pre post _ hxR h
    cases pre with
    | nil =>
      simp only [List.nil_append, List.cons.injEq] at h
      exact ⟨rfl, h.2.symm⟩
    | cons p ps =>
      simp only [List.nil_append, List.cons_append, List.cons.injEq] at h
      obtain ⟨rfl, h2⟩ := h
      exact absurd (h2 ▸ (List.mem_append.mpr (Or.inr (by simp)))) hxR
  | cons a A' ih =>
    intro R pre post hxA hxR h
    cases pre with
    | nil =>
      simp only [List.cons_append, List.nil_append, List.cons.injEq] at h
      exact absurd (h.1 ▸ List.mem_cons_self a A') hxA
    | cons p ps =>
      simp only [List.cons_append, List.cons.injEq] at h
      obtain ⟨rfl, h2⟩ := h
      obtain ⟨h3, h4⟩ := ih R ps post (fun hm => hxA (List.mem_cons_of_mem _ hm)) hxR h2
      exact ⟨by rw [h3], h4⟩

/-! ## `bytes_increment` facts -/

theorem incRevBytes_skip :
    ∀ (F l : List Byte), (∀ c ∈ F, c.val = 255) →
      incRevBytes (F ++ l) = incRevBytes l := by
  intro F
  induction F with
  | nil => intro l _; rfl
  | cons b F' ih =>
    intro l hF
    have hb : b.val = 255 := hF b (by simp)
    show incRevBytes (b :: (F' ++ l)) = incRevBytes l
    simp only [incRevBytes]
    rw [dif_pos hb]
    exact ih l (fun c hc => hF c (by simp [hc]))

theorem incRevBytes_none_iff :
    ∀ l : List Byte, incRevBytes l = none ↔ ∀ c ∈ l, c.val = 255 := by
  intro l
  induction l with
  | nil => simp [incRevBytes]
  | cons b rest ih =>
    by_cases hb : b.val = 255
    · constructor
      · intro h c hc
        rcases List.mem_cons.mp hc with rfl | hc'
        · exact hb
        · refine (ih.mp ?_) c hc'
          simp only [incRevBytes] at h
          rw [dif_pos hb] at h
          exact h
      · intro h
        simp only [incRevBytes]
        rw [dif_pos hb]
        exact ih.mpr (fun c hc => h c (by simp [hc]))
    · constructor
      · intro h
        simp only [incRevBytes] at h
        rw [dif_neg hb] at h
        cases h
      · intro h
        exact absurd (h b (by simp)) hb

/-! ## Claim theorems -/

/-- C5: `bytes_increment(k)` increments the last byte of `k` not equal
to `0xff` and truncates everything after that position; it returns
`none` (no upper bound, not an error) exactly when every byte of `k` is
`0xff`; in particular `bytes_increment b"\xff\xff" = none` and
`bytes_increment b"a\xff" = b"b"`. -/
theorem C5_bytes_increment :
    (∀ (pre suf : List Byte) (b : Byte) (hb : b.val ≠ 255),
      (∀ c ∈ suf, c.val = 255) →
      bytes_increment (pre ++ b :: suf)
        = some (pre ++ [Fin.mk (b.val + 1) (by have := b.isLt; omega)]))
    ∧ (∀ s : List Byte, bytes_increment s = none ↔ ∀ c ∈ s, c.val = 255)
    ∧ bytes_increment [(255 : Byte), (255 : Byte)] = none
    ∧ bytes_increment [(97 : Byte), (255 : Byte)] = some [(98 : Byte)] := by
  refine ⟨?_, ?_, by decide, by decide⟩
  · intro pre suf b hb hsuf
    unfold bytes_increment
    rw [show (pre ++ b :: suf).reverse = suf.reverse ++ b :: pre.reverse by simp]
    rw [incRevBytes_skip suf.reverse (b :: pre.reverse)
      (fun c hc => hsuf c (by simpa using hc))]
    simp only [incRevBytes]
    rw [dif_neg hb]
    simp
  · intro s
    unfold bytes_increment
    constructor
    · intro h c hc
      have h2 : incRevBytes s.reverse = none := by
        cases hi : incRevBytes s.reverse with
        | none => rfl
        | some l => rw [hi] at h; simp at h
      exact (incRevBytes_none_iff s.reverse).mp h2 c (by simpa using hc)
    · intro h
      rw [(incRevBytes_none_iff s.reverse).mpr
        (fun c hc => h c (by simpa using hc))]
      rfl

set_option maxRecDepth 4000 in
/-- C5 witness: the general clause applied at `pre = [0x01]`,
`b = 0x61`, `suf = [0xff]`. -/
theorem C5_bytes_increment_witness :
    bytes_increment [(1 : Byte), (97 : Byte), (255 : Byte)]
      = some [(1 : Byte), (98 : Byte)] := by
  have h := C5_bytes_increment.1 [(1 : Byte)] [(255 : Byte)] (97 : Byte)
    (by decide) (by decide)
  exact h

/-- C6: with a namespace key prefix `P` and no `prefix` argument, the
effective bounds become `P ++ start` (or `P` itself with
`include_start := true` when start is unset) and `P ++ stop` (or
`bytes_increment P` with `include_stop := false` when stop is unset). -/
theorem C6_namespace_bounds (P : List Byte) (start stop : Option (List Byte))
    (inc_s inc_e : Bool) :
    deriveBounds (some P) none start stop inc_s inc_e
      = Except.ok
          ⟨(match start with
            | none => some P
            | some s => some (P ++ s)),
           (match stop with
            | none => bytes_increment P
            | some e => some (P ++ e)),
           (match start with | none => true | some _ => inc_s),
           (match stop with | none => false | some _ => inc_e)⟩ := by
  cases start <;> cases stop <;> rfl

/-- C7: when a `prefix` argument is given (after prepending any
namespace prefix), construction fails with a usage error if `start` or
`stop` was also given; otherwise the bounds become the prefix
(inclusive) and its increment (exclusive), ignoring the caller's
inclusion flags. -/
theorem C7_prefix_bounds (kp : Option (List Byte)) (p : List Byte)
    (start stop : Option (List Byte)) (inc_s inc_e : Bool) :
    (start ≠ none ∨ stop ≠ none →
      deriveBounds kp (some p) start stop inc_s inc_e
        = Except.error UsageError.typeError)
    ∧ (start = none → stop = none →
      deriveBounds kp (some p) start stop inc_s inc_e
        = Except.ok
            ⟨some (match kp with | none => p | some k => k ++ p),
             bytes_increment (match kp with | none => p | some k => k ++ p),
             true, false⟩) := by
  constructor
  · intro h
    cases kp <;> cases start <;> cases stop <;> simp_all [deriveBounds]
  · intro h1 h2
    subst h1
    subst h2
    cases kp <;> rfl

/-- C7 witness: rejection with an explicit `start`, and the prefix
bounds when only a prefix is given. -/
theorem C7_prefix_bounds_witness :
    deriveBounds none (some [(97 : Byte)]) (some []) none true false
      = Except.error UsageError.typeError
    ∧ deriveBounds none (some [(97 : Byte)]) none none true true
      = Except.ok ⟨some [(97 : Byte)], bytes_increment [(97 : Byte)],
          true, false⟩ :=
  ⟨(C7_prefix_bounds none [(97 : Byte)] (some []) none true false).1
      (Or.inl (by simp)),
   (C7_prefix_bounds none [(97 : Byte)] none none true true).2 rfl rfl⟩

/-- C8: as a scoped context (with the database open), a normal scope
exit performs `write()` then `clear()`; an exceptional exit of a batch
created in transaction mode performs only `clear()` — no write — and
the triggering failure propagates unchanged. -/
theorem C8_batch_scope {ε : Type} :
    (∀ transaction : Bool,
      wb_exit true transaction (none : Option ε)
        = Except.ok ([BatchEv.writeOp, BatchEv.clearOp], none))
    ∧ (∀ e : ε,
      wb_exit true true (some e) = Except.ok ([BatchEv.clearOp], some e)) := by
  constructor
  · intro transaction
    cases transaction <;> rfl
  · intro e
    rfl

/-- C10: with transaction mode disabled, an exceptional scope exit
still performs `write()` then `clear()` — the staged operations are
applied despite the failure — and only then does the failure propagate;
rollback applies solely to transaction-mode batches. -/
theorem C10_nontransaction_exit {ε : Type} :
    ∀ e : ε, wb_exit true false (some e)
      = Except.ok ([BatchEv.writeOp, BatchEv.clearOp], some e) := by
  intro e
  rfl


/-- C9: `seek` clamps the target into the `[start, stop]` window with
the comparator (a target below `start` is replaced by `start`, one above
`stop` by `stop` — never rejected), positions the native cursor at the
first key at or after the clamped target, and sets the state to
`IN_BETWEEN_ALREADY_POSITIONED` when the cursor is valid and to
`AFTER_STOP` otherwise. -/
theorem C9_seek_clamps {α : Type} [LinearOrder α] (cfg : ItCfg α)
    (ks : List α) (t : α) :
    (seekIt cfg ks t).pos = cseek ks (specClamp cfg t)
    ∧ ((seekIt cfg ks t).state
        = if (cseek ks (specClamp cfg t)).isSome then
            ItState.IN_BETWEEN_ALREADY_POSITIONED
          else ItState.AFTER_STOP)
    ∧ (∀ c, cseek ks (specClamp cfg t) = some c
        → specClamp cfg t ≤ c.cur ∧ ∀ k ∈ c.before, k < specClamp cfg t) := by
  have hseek : seekIt cfg ks t
      = (if (ckey (cseek ks (specClamp cfg t))).isNone then
          (⟨cseek ks (specClamp cfg t), ItState.AFTER_STOP⟩ : ItPos α)
        else ⟨cseek ks (specClamp cfg t), ItState.IN_BETWEEN_ALREADY_POSITIONED⟩) := by
    unfold seekIt specClamp
    cases cfg.start <;> cases cfg.stop <;>
      simp [cmpInt_lt_zero_iff, cmpInt_pos_iff]
  refine ⟨?_, ?_, ?_⟩
  · rw [hseek]
    by_cases h : (ckey (cseek ks (specClamp cfg t))).isNone <;> simp [h]
  · rw [hseek]
    cases hp : cseek ks (specClamp cfg t) with
    | none => simp [ckey, hp]
    | some c => simp [ckey, hp]
  · intro c hc
    unfold cseek at hc
    cases hd : ks.dropWhile (fun k => decide (k < specClamp cfg t)) with
    | nil =>
      rw [hd] at hc
      cases hc
    | cons c0 a =>
      rw [hd] at hc
      cases hc
      constructor
      · have := dropWhile_cons_head_false ks c0 a hd
        simpa using not_lt.mp (by simpa using this)
      · intro k hk
        have hk2 : k ∈ ks.takeWhile (fun k => decide (k < specClamp cfg t)) := by
          simpa using hk
        simpa using List.mem_takeWhile_imp hk2



/-- C1 counterexample: over the store `{5}` with inclusive start bound
`5` and no stop bound, forward iteration yields `[5]`, the bound
predicate selects `[5]`, yet reverse iteration yields nothing — so the
reverse iterator does not enumerate the same key set descending. -/
theorem C1_counterexample :
    runForward (⟨some 5, none, true, false⟩ : ItCfg Nat) [5] initForward 2 = [5]
    ∧ runReverse (⟨some 5, none, true, false⟩ : ItCfg Nat) [5] initReverse 2 = []
    ∧ ([5] : List Nat).filter (inRangeB ⟨some 5, none, true, false⟩) = [5] := by
  decide

/-- C1 (amended): for every sorted store and every bound combination,
forward iteration yields exactly the keys satisfying the bound
predicate in ascending order; reverse iteration yields the same set in
descending order EXCEPT when the selected set is exactly the singleton
containing the inclusive start key, in which case reverse iteration
yields nothing (the `Compare(start, key) >= 0` repositioning check of
`real_prev`, source line 865, ignores `include_start`). -/
theorem C1_iteration_amended {α : Type} [LinearOrder α] (cfg : ItCfg α)
    (ks : List α) (hs : ks.Pairwise (· < ·)) :
    runForward cfg ks initForward (ks.length + 1) = ks.filter (inRangeB cfg)
    ∧ runReverse cfg ks initReverse (ks.length + 1)
      = (if Econd cfg ks = true then [] else (ks.filter (inRangeB cfg)).reverse) :=
  ⟨runF_full cfg ks hs none ks.length le_rfl,
   runR_full cfg ks hs none ks.length le_rfl⟩

/-- C1 witness: the amended theorem applied to the store
`{0, 1, 2, 3, 4}` with bounds `[1, 3]`, both inclusive. -/
theorem C1_iteration_amended_witness :
    ([0, 1, 2, 3, 4] : List Nat).Pairwise (· < ·)
    ∧ (runForward (⟨some 1, some 3, true, true⟩ : ItCfg Nat) [0, 1, 2, 3, 4]
          initForward (([0, 1, 2, 3, 4] : List Nat).length + 1)
        = ([0, 1, 2, 3, 4] : List Nat).filter (inRangeB ⟨some 1, some 3, true, true⟩)
      ∧ runReverse (⟨some 1, some 3, true, true⟩ : ItCfg Nat) [0, 1, 2, 3, 4]
          initReverse (([0, 1, 2, 3, 4] : List Nat).length + 1)
        = (if Econd (⟨some 1, some 3, true, true⟩ : ItCfg Nat) [0, 1, 2, 3, 4] = true
           then []
           else (([0, 1, 2, 3, 4] : List Nat).filter
              (inRangeB ⟨some 1, some 3, true, true⟩)).reverse)) :=
  ⟨by decide,
   C1_iteration_amended (⟨some 1, some 3, true, true⟩ : ItCfg Nat) [0, 1, 2, 3, 4]
     (by decide)⟩

/-- C2 counterexample: on the store `{0, 2}` with inclusive start bound
`1`, after `seek(1)` a `prev()` call yields `0`, but the following
`next()` yields `2`, not the just-yielded `0` — so the round-trip
property fails at a point of a traversal that used an explicit seek. -/
theorem C2_counterexample :
    (real_prev (⟨some 1, none, true, false⟩ : ItCfg Nat) [0, 2]
        (seekIt ⟨some 1, none, true, false⟩ [0, 2] 1)).1 = some 0
    ∧ (real_next (⟨some 1, none, true, false⟩ : ItCfg Nat) [0, 2]
        (real_prev (⟨some 1, none, true, false⟩ : ItCfg Nat) [0, 2]
          (seekIt ⟨some 1, none, true, false⟩ [0, 2] 1)).2).1 = some 2 := by
  decide

/-- C2 (amended): at every point of a traversal built from `next()` and
`prev()` calls only (no explicit seek), once a call has just yielded an
entry, the opposite call returns that same entry again — `real_prev`
captures the value before moving the cursor, and the re-seek of
`real_next` lands back on a backward-yielded entry. -/
theorem C2_roundtrip_amended {α : Type} [LinearOrder α] (cfg : ItCfg α)
    (ks : List α) (hs : ks.Pairwise (· < ·)) (ops : List NavOp) (s0 : ItPos α)
    (h0 : s0 = initForward ∨ s0 = initReverse) :
    (∀ x it', real_next cfg ks (runOps cfg ks ops s0) = (some x, it')
        → (real_prev cfg ks it').1 = some x)
    ∧ (∀ x it', real_prev cfg ks (runOps cfg ks ops s0) = (some x, it')
        → (real_next cfg ks it').1 = some x) := by
  have hinv0 : NoSeekInv cfg ks s0 := by
    rcases h0 with rfl | rfl
    · exact NoSeekInv_init cfg ks _ (Or.inl rfl)
    · exact NoSeekInv_init cfg ks _ (Or.inr rfl)
  have hinv := runOps_inv cfg ks hs ops s0 hinv0
  exact ⟨fun x it' h => next_then_prev cfg ks h,
         fun x it' h => prev_then_next cfg ks hs hinv h⟩

/-- C2 witness: the amended theorem applied after one `next()` on the
store `{1, 2}` with no bounds. -/
theorem C2_roundtrip_amended_witness :
    ([1, 2] : List Nat).Pairwise (· < ·)
    ∧ ((∀ x it',
          real_next (⟨none, none, true, false⟩ : ItCfg Nat) [1, 2]
              (runOps ⟨none, none, true, false⟩ [1, 2] [NavOp.nextOp] initForward)
            = (some x, it')
          → (real_prev (⟨none, none, true, false⟩ : ItCfg Nat) [1, 2] it').1
              = some x)
      ∧ (∀ x it',
          real_prev (⟨none, none, true, false⟩ : ItCfg Nat) [1, 2]
              (runOps ⟨none, none, true, false⟩ [1, 2] [NavOp.nextOp] initForward)
            = (some x, it')
          → (real_next (⟨none, none, true, false⟩ : ItCfg Nat) [1, 2] it').1
              = some x)) :=
  ⟨by decide,
   C2_roundtrip_amended (⟨none, none, true, false⟩ : ItCfg Nat) [1, 2]
     (by decide) [NavOp.nextOp] initForward (Or.inl rfl)⟩

/-- C3 counterexample: on the store `{1}` with inclusive start bound `1`
and no stop bound, the repositioned entry is valid and is not strictly
before the start key, yet the physical-prev step from `AFTER_STOP` ends
the sequence with no entry yielded — the claimed include_start-sensitive
test is not what the code performs. -/
theorem C3_counterexample :
    ckey (reposition (⟨some 1, none, true, false⟩ : ItCfg Nat) [1]) = some 1
    ∧ ¬ ((1 : Nat) < 1)
    ∧ (real_prev (⟨some 1, none, true, false⟩ : ItCfg Nat) [1]
        ⟨none, ItState.AFTER_STOP⟩).1 = none := by
  decide

/-- C3 (amended): a physical-prev step from `AFTER_STOP` ends with no
entry yielded exactly when the repositioned entry is invalid or
compares at or before the start key — the same `Compare(start, key) >= 0`
test regardless of `include_start`; otherwise the step behaves exactly
like a normal `IN_BETWEEN` yield from the repositioned entry. -/
theorem C3_after_stop_amended {α : Type} [LinearOrder α] (cfg : ItCfg α)
    (ks : List α) (p0 : Option (Cursor α)) :
    ((real_prev cfg ks ⟨p0, ItState.AFTER_STOP⟩).1 = none
      ↔ (match ckey (reposition cfg ks) with
          | none => True
          | some k => ∃ s, cfg.start = some s ∧ k ≤ s))
    ∧ (∀ c, reposition cfg ks = some c
        → (∀ s, cfg.start = some s → s < c.cur)
        → real_prev cfg ks ⟨p0, ItState.AFTER_STOP⟩
            = real_prev cfg ks ⟨some c, ItState.IN_BETWEEN⟩) := by
  cases hrep : reposition cfg ks with
  | none =>
    have hstep : real_prev cfg ks ⟨p0, ItState.AFTER_STOP⟩
        = (none, ⟨none, ItState.AFTER_STOP⟩) := by
      simp [real_prev, hrep, ckey]
    constructor
    · rw [hstep]
      simp [ckey]
    · intro c hc
      exact (nomatch hc)
  | some c0 =>
    cases hstart : cfg.start with
    | none =>
      have hstep : real_prev cfg ks ⟨p0, ItState.AFTER_STOP⟩
          = prevTail cfg (some c0) := by
        simp [real_prev, hrep, ckey, hstart]
      have hfst : (prevTail cfg (some c0)).1 = some c0.cur := prevTail_fst rfl
      constructor
      · rw [hstep, hfst]
        simp [ckey, hstart]
      · intro c hc h2
        obtain rfl := Option.some.inj hc
        rw [hstep, real_prev_inbetween]
    | some s =>
      by_cases hms : c0.cur ≤ s
      · have hstep : real_prev cfg ks ⟨p0, ItState.AFTER_STOP⟩
            = (none, ⟨some c0, ItState.AFTER_STOP⟩) := by
          simp [real_prev, hrep, ckey, hstart,
            (cmpInt_ge_zero_iff s c0.cur).mpr hms]
        constructor
        · rw [hstep]
          constructor
          · intro _
            simp only [ckey, Option.map_some]
            exact ⟨s, rfl, hms⟩
          · intro _
            rfl
        · intro c hc h2
          obtain rfl := Option.some.inj hc
          exact absurd (h2 s rfl) (not_lt.mpr hms)
      · have hguard : ¬ (cmpInt s c0.cur ≥ 0) := by
          rw [cmpInt_ge_zero_iff]
          exact hms
        have hstep : real_prev cfg ks ⟨p0, ItState.AFTER_STOP⟩
            = prevTail cfg (some c0) := by
          simp [real_prev, hrep, ckey, hstart, hguard]
        have hfst : (prevTail cfg (some c0)).1 = some c0.cur := prevTail_fst rfl
        constructor
        · rw [hstep, hfst]
          simp only [ckey, Option.map_some]
          constructor
          · intro h
            cases h
          · intro h
            obtain ⟨s2, hs2, hle⟩ := h
            obtain rfl := Option.some.inj hs2
            exact absurd hle hms
        · intro c hc h2
          obtain rfl := Option.some.inj hc
          rw [hstep, real_prev_inbetween]

/-- C3 witness: the amended theorem applied to the store `{1, 2, 3}`
with exclusive start bound `1` and stop bound `3` (inclusive). -/
theorem C3_after_stop_amended_witness :
    (((real_prev (⟨some 1, some 3, false, true⟩ : ItCfg Nat) [1, 2, 3]
        ⟨none, ItState.AFTER_STOP⟩).1 = none
      ↔ (match ckey (reposition (⟨some 1, some 3, false, true⟩ : ItCfg Nat)
            [1, 2, 3]) with
          | none => True
          | some k => ∃ s, (⟨some 1, some 3, false, true⟩ : ItCfg Nat).start
              = some s ∧ k ≤ s))
    ∧ (∀ c, reposition (⟨some 1, some 3, false, true⟩ : ItCfg Nat) [1, 2, 3]
          = some c
        → (∀ s, (⟨some 1, some 3, false, true⟩ : ItCfg Nat).start = some s
            → s < c.cur)
        → real_prev (⟨some 1, some 3, false, true⟩ : ItCfg Nat) [1, 2, 3]
              ⟨none, ItState.AFTER_STOP⟩
            = real_prev (⟨some 1, some 3, false, true⟩ : ItCfg Nat) [1, 2, 3]
              ⟨some c, ItState.IN_BETWEEN⟩)) :=
  C3_after_stop_amended (⟨some 1, some 3, false, true⟩ : ItCfg Nat) [1, 2, 3] none



/-- C4 counterexample: with a live engine handle and an allocated block
cache, `DB.close` emits the engine-connection close BEFORE the block
cache release — the engine connection is NOT closed after the option
resources are released, contrary to the claimed order. -/
theorem C4_counterexample :
    closeTrace ⟨some [], true, true, false, none⟩
      = [CloseEv.closeEngine, CloseEv.freeBlockCache] := by
  decide

/-- C4 (amended): `DB.close` first force-closes every iterator in the
weak registry, THEN closes the engine connection, and only after that
releases the option resources (block cache, filter policy, and a custom
comparator adapter — never the shared built-in comparator): everything
before the engine-close event is an iterator close, everything after it
is an option-resource release, and the comparator is only ever released
when it is a custom one. -/
theorem C4_close_amended (db : DBState) :
    (∀ pre post, closeTrace db = pre ++ CloseEv.closeEngine :: post
      → (∀ e ∈ pre, ∃ i, e = CloseEv.closeIter i)
        ∧ (∀ e ∈ post, e = CloseEv.freeBlockCache ∨ e = CloseEv.freeFilterPolicy
            ∨ e = CloseEv.freeComparator))
    ∧ (CloseEv.freeComparator ∈ closeTrace db
        → db.comparator = some CompKind.custom) := by
  obtain ⟨its, dbo, bc, fp, comp⟩ := db
  have hiter : ∀ e ∈ iterEvents its, ∃ i, e = CloseEv.closeIter i := by
    intro e he
    cases its with
    | none => simp [iterEvents] at he
    | some l =>
      simp only [iterEvents, List.mem_map] at he
      obtain ⟨i, _, hi⟩ := he
      exact ⟨i, hi.symm⟩
  have hopt : ∀ e ∈ optionEvents bc fp comp,
      e = CloseEv.freeBlockCache ∨ e = CloseEv.freeFilterPolicy
        ∨ e = CloseEv.freeComparator := by
    intro e he
    unfold optionEvents at he
    rcases List.mem_append.mp he with he2 | he2
    · rcases List.mem_append.mp he2 with he3 | he3
      · cases bc <;> simp at he3
        exact Or.inl he3
      · cases fp <;> simp at he3
        exact Or.inr (Or.inl he3)
    · rcases comp with _ | k
      · simp at he2
      · cases k <;> simp at he2
        exact Or.inr (Or.inr he2)
  have hengine1 : CloseEv.closeEngine ∉ iterEvents its := by
    intro hmem
    obtain ⟨i, hi⟩ := hiter _ hmem
    cases hi
  have hengine2 : CloseEv.closeEngine ∉ optionEvents bc fp comp := by
    intro hmem
    rcases hopt _ hmem with h | h | h <;> cases h
  constructor
  · intro pre post h
    cases dbo with
    | false =>
      exfalso
      have hmem : CloseEv.closeEngine
          ∈ closeTrace ⟨its, false, bc, fp, comp⟩ := by
        rw [h]
        simp
      unfold closeTrace at hmem
      simp only [if_neg (by simp : ¬ (false = true)), List.append_nil,
        List.nil_append] at hmem
      rcases List.mem_append.mp hmem with h2 | h2
      · exact hengine1 h2
      · exact hengine2 h2
    | true =>
      have htr : closeTrace ⟨its, true, bc, fp, comp⟩
          = iterEvents its
            ++ CloseEv.closeEngine :: optionEvents bc fp comp := by
        unfold closeTrace
        simp
      rw [htr] at h
      obtain ⟨hpre, hpost⟩ := split_at_unique _ _ pre post hengine1 hengine2 h
      exact ⟨fun e he => hiter e (hpre ▸ he), fun e he => hopt e (hpost ▸ he)⟩
  · intro hmem
    unfold closeTrace at hmem
    rcases List.mem_append.mp hmem with h2 | h2
    · rcases List.mem_append.mp h2 with h3 | h3
      · obtain ⟨i, hi⟩ := hiter _ h3
        cases hi
      · cases dbo <;> simp at h3
    · rcases comp with _ | k
      · exfalso
        unfold optionEvents at h2
        rcases List.mem_append.mp h2 with h3 | h3
        · rcases List.mem_append.mp h3 with h4 | h4
          · cases bc <;> simp at h4
          · cases fp <;> simp at h4
        · simp at h3
      · cases k with
        | custom => rfl
        | builtinBytewise =>
          exfalso
          unfold optionEvents at h2
          rcases List.mem_append.mp h2 with h3 | h3
          · rcases List.mem_append.mp h3 with h4 | h4
            · cases bc <;> simp at h4
            · cases fp <;> simp at h4
          · simp at h3

/-- C4 witness: the amended theorem at a database with one registered
iterator, a live engine handle, a block cache and a custom comparator. -/
theorem C4_close_amended_witness :
    ((∀ pre post,
        closeTrace ⟨some [7], true, true, true, some CompKind.custom⟩
          = pre ++ CloseEv.closeEngine :: post
        → (∀ e ∈ pre, ∃ i, e = CloseEv.closeIter i)
          ∧ (∀ e ∈ post, e = CloseEv.freeBlockCache
              ∨ e = CloseEv.freeFilterPolicy ∨ e = CloseEv.freeComparator))
    ∧ (CloseEv.freeComparator
          ∈ closeTrace ⟨some [7], true, true, true, some CompKind.custom⟩
        → DBState.comparator ⟨some [7], true, true, true, some CompKind.custom⟩
            = some CompKind.custom)) :=
  C4_close_amended ⟨some [7], true, true, true, some CompKind.custom⟩



/-- C9 witness: the seek theorem at the store `{1, 3, 5}` with bounds
`[2, 4)` and the out-of-window target `0`. -/
theorem C9_seek_clamps_witness :
    ((seekIt (⟨some 2, some 4, true, false⟩ : ItCfg Nat) [1, 3, 5] 0).pos
      = cseek [1, 3, 5] (specClamp (⟨some 2, some 4, true, false⟩ : ItCfg Nat) 0))
    ∧ ((seekIt (⟨some 2, some 4, true, false⟩ : ItCfg Nat) [1, 3, 5] 0).state
        = if (cseek [1, 3, 5]
              (specClamp (⟨some 2, some 4, true, false⟩ : ItCfg Nat) 0)).isSome
          then ItState.IN_BETWEEN_ALREADY_POSITIONED
          else ItState.AFTER_STOP)
    ∧ (∀ c, cseek [1, 3, 5]
          (specClamp (⟨some 2, some 4, true, false⟩ : ItCfg Nat) 0) = some c
        → specClamp (⟨some 2, some 4, true, false⟩ : ItCfg Nat) 0 ≤ c.cur
          ∧ ∀ k ∈ c.before,
              k < specClamp (⟨some 2, some 4, true, false⟩ : ItCfg Nat) 0) :=
  C9_seek_clamps (⟨some 2, some 4, true, false⟩ : ItCfg Nat) [1, 3, 5] 0


end Plyvel
